import Mathlib

/-!
Verification of the schema-to-code generation pipeline of the
nest-openapi-code-generator repository, against its natural-language
specification.

The definitions below are a shallow embedding of the TypeScript sources:

* `src/generator/dto-generator.ts` — `DtoGenerator` (`getTypeScriptType`,
  `processProperty`, `processSchema`, `schemasMatch`,
  `findMatchingExistingDto`, `collectNestedDtoSchemas`, `generateAllDtos`,
  `topologicalSort`, `collectEnumsForTemplate`, `getEnumName`,
  `collectAndOrderAllDtos`).
* `src/generator/controller-generator.ts` (the variant carrying
  `sortParameters` and the union-building `getReturnType`) —
  `processParameters`, `sortParameters`, `getParamType`, `getSchemaType`,
  `getReturnType`, `buildDecorators`, `toCamelCase`.

Modelling conventions:
* JavaScript objects carrying optional fields become `Option` fields; an
  absent field is `none`.  JS truthiness of a string field ("" is falsy) is
  modelled by `truthyStr`.
* `Set<string>` / `Map<string, v>` iterate in insertion order; they are
  modelled by lists with insert-if-absent (`insertImport`) and
  insert-or-replace (`mapSet`).
* Response status codes parsed by `parseInt` are modelled as `Option Nat`
  (`none` models a non-numeric key, i.e. `NaN`).
* `String.prototype.localeCompare` and the default array sort on strings
  are modelled as code-point comparison (`Mathlib`'s linear order on
  `String`); `Array.prototype.sort` with a comparator is modelled as a
  stable merge sort, matching the ECMAScript 2019+ stability guarantee.
* Fields of schema nodes that feed only validation-decorator text
  (`format`, `pattern`, numeric bounds, `description`, `example`) are not
  consulted by any claim and are omitted from the embedding, as are the
  decorator lists of DTO properties.
-/

namespace NestGen

/-- A node of an OpenAPI schema document, as consumed by the generator:
`$ref`, `type`, `properties` (insertion-ordered), `required`, `items`,
`enum`.  `properties = none` models an absent `properties` field (distinct
from an empty object, which is truthy in JS). -/
inductive Schema where
  | mk (ref : Option String) (type : Option String)
       (properties : Option (List (String × Schema)))
       (required : List String)
       (items : Option Schema)
       (enumVals : Option (List String))
       (format : Option String)
       (pattern : Option String)

def Schema.ref : Schema → Option String
  | .mk r _ _ _ _ _ _ _ => r

def Schema.type : Schema → Option String
  | .mk _ t _ _ _ _ _ _ => t

def Schema.properties : Schema → Option (List (String × Schema))
  | .mk _ _ p _ _ _ _ _ => p

def Schema.required : Schema → List String
  | .mk _ _ _ r _ _ _ _ => r

def Schema.items : Schema → Option Schema
  | .mk _ _ _ _ i _ _ _ => i

def Schema.enumVals : Schema → Option (List String)
  | .mk _ _ _ _ _ e _ _ => e

def Schema.format : Schema → Option String
  | .mk _ _ _ _ _ _ f _ => f

def Schema.pattern : Schema → Option String
  | .mk _ _ _ _ _ _ _ p => p

/-- JS truthiness of an optional string field: present and non-empty. -/
def truthyStr : Option String → Bool
  | none => false
  | some s => s ≠ ""

/-- The parsed spec document as the generator sees it: the dereferenced
`components.schemas` map, and (when the parser attached `_originalSpec`)
the pre-dereference `components.schemas` map. -/
structure Spec where
  schemas : List (String × Schema)
  originalSchemas : Option (List (String × Schema))

/-- `str.charAt(0).toUpperCase() + str.slice(1)` (JS `capitalize`). -/
def capitalizeJs (s : String) : String :=
  match s.data with
  | [] => ""
  | c :: cs => String.mk (c.toUpper :: cs)

/-- `name.replace(/Dto$/, '')`, written over the character list so that
the decomposition `stripDtoSuffix s ++ "Dto" = s` is provable. -/
def stripDtoSuffix (s : String) : String :=
  if "Dto".data.isSuffixOf s.data then
    String.mk (s.data.take (s.data.length - 3))
  else s

/-- Scan for the characters after the last slash. -/
def lastSegAux : List Char → List Char → List Char
  | [], acc => acc.reverse
  | c :: rest, acc =>
    if c = '/' then lastSegAux rest [] else lastSegAux rest (c :: acc)

/-- `ref.split('/').pop()` — the last `/`-separated segment. -/
def refLastSegment (r : String) : String :=
  String.mk (lastSegAux r.data [])

/-- `Set<string>.add`: append if absent (JS sets keep insertion order). -/
def insertImport (l : List String) (x : String) : List String :=
  if l.contains x then l else l ++ [x]

/-- `Map.set`: replace the value of an existing key in place, else append. -/
def mapSet {α : Type} (l : List (String × α)) (k : String) (v : α) :
    List (String × α) :=
  if l.any (fun p => p.1 == k) then
    l.map (fun p => if p.1 == k then (k, v) else p)
  else l ++ [(k, v)]

/-- `spec.components?.schemas?.[name]`. -/
def lookupSchema (l : List (String × Schema)) (n : String) : Option Schema :=
  List.lookup n l

/-- Code-point (lexicographic) comparison of character lists; the
executable order underlying the modelled JS string comparisons. -/
def charListLe : List Char → List Char → Bool
  | [], _ => true
  | _ :: _, [] => false
  | a :: as, b :: bs =>
    if a < b then true else if b < a then false else charListLe as bs

/-- Code-point string order (models the default JS string sort and
`localeCompare` as code-point comparison). -/
def strLeB (a b : String) : Bool := charListLe a.data b.data

/-- Insert into a sorted list, before the first element that is
greater-or-tied — the insertion step of the stable sort. -/
def insertSorted {α : Type} (le : α → α → Bool) (x : α) : List α → List α
  | [] => [x]
  | y :: ys => if le x y then x :: y :: ys else y :: insertSorted le x ys

/-- Stable sort (insertion sort), modelling `Array.prototype.sort`
(stable per ECMAScript 2019+). -/
def stableSort {α : Type} (le : α → α → Bool) : List α → List α
  | [] => []
  | x :: xs => insertSorted le x (stableSort le xs)

/-- `schemasMatch(schema1, schema2)`: both have `properties`, equally many,
and the sorted property-name lists coincide (JS default string sort,
modelled as code-point order). -/
def schemasMatch (s1 s2 : Schema) : Bool :=
  match s1.properties, s2.properties with
  | some ps1, some ps2 =>
    let props1 := stableSort strLeB (ps1.map Prod.fst)
    let props2 := stableSort strLeB (ps2.map Prod.fst)
    props1.length == props2.length && props1 == props2
  | _, _ => false

/-- `findMatchingExistingDto(schema, spec)`: the first named schema of the
document whose property-name set matches, as `<Name>Dto`. -/
def findMatchingExistingDto (spec : Spec) (s : Schema) : Option String :=
  (spec.schemas.find? (fun p => schemasMatch s p.2)).map (fun p => p.1 ++ "Dto")

/-- `currentDtoName?.replace(/Dto$/, '') || 'Unknown'`. -/
def parentTypeNameOf (currentDtoName : Option String) : String :=
  match currentDtoName with
  | none => "Unknown"
  | some c => let p := stripDtoSuffix c; if p = "" then "Unknown" else p

mutual

/-- `getTypeScriptType(schema, spec, imports, currentDtoName)` from
`dto-generator.ts`.  Returns the type expression together with the updated
`imports` set (the JS code mutates a `Set<string>` in place).  The source's
optional `spec`/`imports` parameters are always supplied on the modelled
call paths; the `type === 'array'` arm is split off into
`getTypeScriptTypeItems`. -/
def getTypeScriptType (spec : Spec) : Schema → List String → Option String →
    String × List String
  | .mk ref ty _props _req items _en _fm _pt, imports, currentDtoName =>
    if truthyStr ref then
      let refName := refLastSegment (ref.getD "")
      let dtoName := refName ++ "Dto"
      if currentDtoName.any (fun c => (c != "") && (dtoName == c)) then
        ("any", imports)
      else
        (dtoName, insertImport imports dtoName)
    else
      match ty with
      | some "string" => ("string", imports)
      | some "number" => ("number", imports)
      | some "integer" => ("number", imports)
      | some "boolean" => ("boolean", imports)
      | some "array" => getTypeScriptTypeItems spec items imports currentDtoName
      | some "object" => ("object", imports)
      | _ => ("any", imports)

/-- The `schema.type === 'array'` arm of `getTypeScriptType`, applied to
`schema.items`. -/
def getTypeScriptTypeItems (spec : Spec) :
    Option Schema → List String → Option String → String × List String
  | some it, imports, currentDtoName =>
    let step := getTypeScriptType spec it imports currentDtoName
    if it.type == some "object" && it.properties.isSome && !truthyStr it.ref then
      match findMatchingExistingDto spec it with
      | some m => (m ++ "[]", insertImport step.2 m)
      | none => ("object[]", step.2)
    else
      (step.1 ++ "[]", step.2)
  | none, imports, _ => ("any[]", imports)

end

end NestGen

namespace NestGen

/-- The emitted property descriptor (name carries the `?` marker for
optional properties, as in the source); decorator strings are omitted. -/
structure DtoProperty where
  name : String
  type : String
  required : Bool
deriving DecidableEq, Repr

/-- The emitted model descriptor: name, ordered properties, and the
dependency (`imports`) set in insertion order. -/
structure DtoSchema where
  name : String
  properties : List DtoProperty
  imports : List String
deriving DecidableEq, Repr

/-- `processProperty(name, schema, isRequired, spec, imports, currentDtoName)`
from `dto-generator.ts`, restricted to the data the descriptors carry
(type expression, final name, required flag) and the `imports` side
effect.  The decorator-building branches that do not touch `type` or
`imports` are omitted; the extra `getTypeScriptType(schema.items, ...)`
call made while assembling `@ApiProperty` options re-adds only names
already inserted and is dropped as a set-level no-op. -/
def processProperty (spec : Spec) (name : String) (s : Schema)
    (isRequired : Bool) (imports : List String)
    (currentDtoName : Option String) : DtoProperty × List String :=
  let step0 := getTypeScriptType spec s imports currentDtoName
  let step1 :=
    if s.type == some "object" && s.properties.isSome && !truthyStr s.ref then
      match findMatchingExistingDto spec s with
      | some m => (m, insertImport step0.2 m)
      | none =>
        let inlineDtoName :=
          parentTypeNameOf currentDtoName ++ capitalizeJs name ++ "Dto"
        (inlineDtoName, insertImport step0.2 inlineDtoName)
    else step0
  let step2 :=
    if s.type == some "array" then
      match s.items with
      | some it =>
        let istep := getTypeScriptType spec it step1.2 currentDtoName
        if it.type == some "object" && it.properties.isSome && !truthyStr it.ref then
          match findMatchingExistingDto spec it with
          | some m => (m ++ "[]", insertImport istep.2 m)
          | none =>
            let inlineDtoName :=
              parentTypeNameOf currentDtoName ++ capitalizeJs name ++ "ItemDto"
            (inlineDtoName ++ "[]", insertImport istep.2 inlineDtoName)
        else (step1.1, istep.2)
      | none => step1
    else step1
  ({ name := if isRequired then name else name ++ "?",
     type := step2.1,
     required := isRequired }, step2.2)

/-- `processSchema(dtoName, schema, spec)`: fold `processProperty` over the
properties, threading the shared `imports` set. -/
def processSchema (spec : Spec) (dtoName : String) (s : Schema) : DtoSchema :=
  let required := s.required
  let step : List DtoProperty × List String :=
    match s.properties with
    | none => ([], [])
    | some ps =>
      ps.foldl (fun acc pr =>
        let r := processProperty spec pr.1 pr.2 (required.contains pr.1)
          acc.2 (some dtoName)
        (acc.1 ++ [r.1], r.2)) ([], [])
  { name := dtoName, properties := step.1, imports := step.2 }

/-- Descending through `schema.items` shrinks the node. -/
theorem sizeOf_lt_of_items {s it : Schema} (h : s.items = some it) :
    sizeOf it < sizeOf s := by
  cases s with
  | mk r t p rq i e f pt =>
    simp only [Schema.items] at h
    subst h
    simp
    omega

mutual

/-- `collectNestedDtoSchemas(schema, nestedDtoSchemas, spec, parentDtoName)`:
record every inline object / inline array-item schema that will become a
synthesized DTO, recursively, into the insertion-ordered map `acc`. -/
def collectNestedDtoSchemas (spec : Spec) : Schema → Option String →
    List (String × Schema) → List (String × Schema)
  | .mk _ _ props _ _ _ _ _, parentDtoName, acc =>
    match props with
    | none => acc
    | some ps => collectNestedList spec ps parentDtoName acc

/-- The `prop.type === 'array'` arm of the nested-schema walk: record an
object-typed array-item schema as a synthesized `...ItemDto`. -/
def collectNestedItems (spec : Spec) (propName : String)
    (parentDtoName : Option String) : Schema → List (String × Schema) →
    List (String × Schema)
  | .mk _ _ _ _ (some it) _ _ _, acc =>
    if it.type == some "object" && it.properties.isSome && !truthyStr it.ref then
      match findMatchingExistingDto spec it with
      | some _ => acc
      | none =>
        let inlineDtoName :=
          parentTypeNameOf parentDtoName ++ capitalizeJs propName ++ "ItemDto"
        collectNestedDtoSchemas spec it (some inlineDtoName)
          (mapSet acc inlineDtoName it)
    else acc
  | _, acc => acc

/-- Loop body of `collectNestedDtoSchemas` over the property list. -/
def collectNestedList (spec : Spec) : List (String × Schema) → Option String →
    List (String × Schema) → List (String × Schema)
  | [], _, acc => acc
  | (propName, prop) :: rest, parentDtoName, acc =>
    let acc1 :=
      if prop.type == some "object" && prop.properties.isSome && !truthyStr prop.ref then
        match findMatchingExistingDto spec prop with
        | some _ => acc
        | none =>
          let inlineDtoName :=
            parentTypeNameOf parentDtoName ++ capitalizeJs propName ++ "Dto"
          collectNestedDtoSchemas spec prop (some inlineDtoName)
            (mapSet acc inlineDtoName prop)
      else acc
    let acc2 :=
      if prop.type == some "array" then
        collectNestedItems spec propName parentDtoName prop acc1
      else acc1
    collectNestedList spec rest parentDtoName acc2

end

/-- An emitted enum descriptor: derived name and `(key, literal)` pairs. -/
structure EnumDef where
  name : String
  values : List (String × String)
deriving DecidableEq, Repr

/-- `getEnumName(propertyName, enumValues)`: capitalized property name plus
`Enum` (the value list is ignored by the source as well). -/
def getEnumName (propertyName : String) (_enumValues : List String) : String :=
  capitalizeJs propertyName ++ "Enum"

/-- `value.toUpperCase().replace(/[^A-Z0-9]/g, '_')`. -/
def jsEnumKey (v : String) : String :=
  String.mk ((v.data.map Char.toUpper).map
    (fun c => if c.isUpper || c.isDigit then c else '_'))

/-- Append an enum descriptor unless one of that name is already present
(the source keeps an `enumNames` set in sync with the `enums` array). -/
def pushEnumIfNew (acc : List EnumDef) (e : EnumDef) : List EnumDef :=
  if acc.any (fun x => x.name == e.name) then acc else acc ++ [e]

mutual

/-- `collectEnumsForTemplate(schema, spec)` from `dto-generator.ts`.  The
source's `visited` set tracks JS object identity and can never fire on the
tree-shaped schema values modelled here, so it is dropped. -/
def collectEnumsForTemplate (spec : Spec) : Schema → List EnumDef
  | .mk _ _ none _ _ _ _ _ => []
  | .mk _ _ (some ps) _ _ _ _ _ => collectEnumsList spec ps []

/-- The `prop.type === 'array' && prop.items && ...` arm of the collector
loop: merge the enums of an object-typed array-item schema. -/
def collectEnumsItems (spec : Spec) : Schema → List EnumDef → List EnumDef
  | .mk _ _ _ _ (some it) _ _ _, acc =>
    if it.type == some "object" && it.properties.isSome then
      (collectEnumsForTemplate spec it).foldl pushEnumIfNew acc
    else acc
  | _, acc => acc

/-- Loop body of `collectEnumsForTemplate`, threading the accumulated
descriptor list (whose name set models the source's `enumNames`). -/
def collectEnumsList (spec : Spec) : List (String × Schema) → List EnumDef →
    List EnumDef
  | [], acc => acc
  | (propName, prop) :: rest, acc =>
    let acc1 :=
      match prop.enumVals, prop.type with
      | some evs, some "string" =>
        pushEnumIfNew acc
          { name := getEnumName propName evs,
            values := evs.map (fun v => (jsEnumKey v, v)) }
      | _, _ => acc
    let acc2 :=
      if prop.type == some "object" && prop.properties.isSome then
        (collectEnumsForTemplate spec prop).foldl pushEnumIfNew acc1
      else acc1
    let acc3 :=
      if prop.type == some "array" then collectEnumsItems spec prop acc2
      else acc2
    collectEnumsList spec rest acc3

end

end NestGen

namespace NestGen

/-! ### Generic helper lemmas on filtered list lengths -/

theorem length_filter_le_of_imp {α : Type} (l : List α) (p q : α → Bool)
    (h : ∀ a ∈ l, p a = true → q a = true) :
    (l.filter p).length ≤ (l.filter q).length := by
  induction l with
  | nil => simp
  | cons x xs ih =>
    have hxs : ∀ a ∈ xs, p a = true → q a = true := fun a ha => h a (by simp [ha])
    have hih := ih hxs
    cases hp : p x with
    | false =>
      cases hq : q x with
      | false => simp [List.filter_cons, hp, hq] <;> omega
      | true => simp [List.filter_cons, hp, hq] <;> omega
    | true =>
      have hq := h x (List.mem_cons_self x xs) hp
      simp [List.filter_cons, hp, hq] <;> omega

theorem length_filter_lt_of_imp {α : Type} (l : List α) (p q : α → Bool)
    (h : ∀ a ∈ l, p a = true → q a = true)
    (a0 : α) (ha0 : a0 ∈ l) (hq : q a0 = true) (hp : p a0 = false) :
    (l.filter p).length < (l.filter q).length := by
  induction l with
  | nil => simp at ha0
  | cons x xs ih =>
    have hxs : ∀ a ∈ xs, p a = true → q a = true := fun a ha => h a (by simp [ha])
    rcases List.mem_cons.mp ha0 with rfl | hmem
    · have hle := length_filter_le_of_imp xs p q hxs
      simp [List.filter_cons, hp, hq] <;> omega
    · have step := ih hxs hmem
      cases hpx : p x with
      | false =>
        cases hqx : q x with
        | false => simp [List.filter_cons, hpx, hqx] <;> omega
        | true => simp [List.filter_cons, hpx, hqx] <;> omega
      | true =>
        have hqx := h x (List.mem_cons_self x xs) hpx
        simp [List.filter_cons, hpx, hqx] <;> omega

/-- `stripDtoSuffix` inverts appending `"Dto"`. -/
theorem stripDtoSuffix_append_dto (x : String) :
    stripDtoSuffix (x ++ "Dto") = x := by
  unfold stripDtoSuffix
  have hdata : (x ++ "Dto").data = x.data ++ "Dto".data := by
    simp [String.data_append]
  have hsuf : "Dto".data.isSuffixOf (x ++ "Dto").data = true := by
    rw [hdata]
    exact List.isSuffixOf_iff_suffix.mpr ⟨x.data, rfl⟩
  rw [if_pos hsuf]
  apply String.ext
  show ((x ++ "Dto").data.take ((x ++ "Dto").data.length - 3)) = x.data
  rw [hdata]
  have hlen : (x.data ++ "Dto".data).length = x.data.length + 3 := by
    simp [List.length_append]
  rw [hlen]
  simp

end NestGen

namespace NestGen

/-! ### `topologicalSort` (dto-generator.ts)

The source's inner `visit` closure recurses without bound on the call
stack; the embedding gives it an explicit depth fuel.  `topologicalSort`
supplies `number of keys + 1`, which `topoVisit_fuel_irrelevant` below
shows to be enough for the run to complete exactly as the unbounded
recursion would. -/

/-- The mutable state of `topologicalSort`: the `visiting` set, the
`visited` set and the output `result` array. -/
structure TopoState where
  visiting : List String
  visited : List String
  result : List String
deriving DecidableEq, Repr

/-- `dependencies.get(node) || new Set()`. -/
def depsOf (deps : List (String × List String)) (n : String) : List String :=
  (List.lookup n deps).getD []

/-- `dependencies.has(node)`. -/
def hasDepKey (deps : List (String × List String)) (n : String) : Bool :=
  (List.lookup n deps).isSome

mutual

/-- The `visit` closure of `topologicalSort`: skip nodes in `visiting`
(cycle) or `visited`; otherwise mark visiting, visit all dependencies that
are keys, then move the node to `visited` and push it on `result`.  The
unbounded call-stack recursion of the source gets an explicit work fuel,
decremented on every call; `topologicalSort` supplies enough for the run
to complete exactly as the unbounded recursion would (see the
fuel-irrelevance lemma). -/
def topoVisit (deps : List (String × List String)) :
    Nat → String → TopoState → TopoState
  | 0, _, st => st
  | fuel + 1, node, st =>
    if st.visiting.contains node then st
    else if st.visited.contains node then st
    else
      let st1 : TopoState := ⟨node :: st.visiting, st.visited, st.result⟩
      let st2 := topoVisitList deps fuel (depsOf deps node) st1
      ⟨st2.visiting.erase node, node :: st2.visited, st2.result ++ [node]⟩

/-- The `for (const dep of deps) if (dependencies.has(dep)) visit(dep)`
loop, threading the state left to right. -/
def topoVisitList (deps : List (String × List String)) :
    Nat → List String → TopoState → TopoState
  | 0, _, st => st
  | _ + 1, [], st => st
  | fuel + 1, d :: ds, st =>
    topoVisitList deps fuel ds
      (if hasDepKey deps d then topoVisit deps fuel d st else st)

end

/-- Work-fuel budget that lets the DFS complete: every proceeding visit
of a key consumes its dependency-list length plus two steps. -/
def topoFuel (deps : List (String × List String)) : Nat :=
  (((deps.map Prod.fst).map (fun k => (depsOf deps k).length + 2)).sum) + 1

/-- `topologicalSort(dependencies)`: DFS from every key in insertion
order. -/
def topologicalSort (deps : List (String × List String)) : List String :=
  let keys := deps.map Prod.fst
  let fuel := topoFuel deps
  (keys.foldl (fun st n => topoVisit deps fuel n st) ⟨[], [], []⟩).result

/-! ### `generateAllDtos` (dto-generator.ts) -/

/-- The model-descriptor batch handed to the dto template: ordered model
descriptors plus collected enum descriptors. -/
structure DtoBatch where
  schemas : List DtoSchema
  enums : List EnumDef
deriving DecidableEq, Repr

/-- Accumulator of `generateAllDtos`: `allDtos`, `dependencies`,
`nestedDtoSchemas` and `allEnums` (with `enumNames` kept as the name set
of `allEnums`). -/
structure GenState where
  allDtos : List (String × DtoSchema)
  dependencies : List (String × List String)
  nestedDtoSchemas : List (String × Schema)
  allEnums : List EnumDef

/-- First pass of `generateAllDtos` over one named schema. -/
def genFirstPassStep (spec : Spec) (originalSchemas : List (String × Schema))
    (st : GenState) (entry : String × Schema) : GenState :=
  let dtoName := entry.1 ++ "Dto"
  let originalSchema := (List.lookup entry.1 originalSchemas).getD entry.2
  let dtoSchema := processSchema spec dtoName originalSchema
  { allDtos := mapSet st.allDtos dtoName dtoSchema
    dependencies := mapSet st.dependencies dtoName dtoSchema.imports
    nestedDtoSchemas :=
      collectNestedDtoSchemas spec originalSchema (some dtoName) st.nestedDtoSchemas
    allEnums := (collectEnumsForTemplate spec entry.2).foldl pushEnumIfNew st.allEnums }

/-- Second pass of `generateAllDtos` over one discovered nested schema. -/
def genSecondPassStep (spec : Spec) (st : GenState) (entry : String × Schema) :
    GenState :=
  if st.allDtos.any (fun p => p.1 == entry.1) then st
  else
    let dtoSchema := processSchema spec entry.1 entry.2
    { st with
      allDtos := mapSet st.allDtos entry.1 dtoSchema
      dependencies := mapSet st.dependencies entry.1 dtoSchema.imports
      allEnums := (collectEnumsForTemplate spec entry.2).foldl pushEnumIfNew st.allEnums }

/-- `generateAllDtos(schemas, spec)`; the orchestrator passes
`schemas = spec.components?.schemas || {}`, so the embedding reads the
schema map from the spec. -/
def generateAllDtos (spec : Spec) : DtoBatch :=
  let schemas := spec.schemas
  let originalSchemas := spec.originalSchemas.getD schemas
  let st1 := schemas.foldl (genFirstPassStep spec originalSchemas)
    ⟨[], [], [], []⟩
  let st2 := st1.nestedDtoSchemas.foldl (genSecondPassStep spec)
    { st1 with nestedDtoSchemas := st1.nestedDtoSchemas }
  let sorted := topologicalSort st2.dependencies
  { schemas := sorted.filterMap (fun n => List.lookup n st2.allDtos)
    enums := st2.allEnums }

/-! ### `collectAndOrderAllDtos` / `collectDto` (dto-generator.ts)

`collectDto` recurses depth-first over the imports of each processed DTO,
sharing one `visited` set and the `allDtos`/`dependencies` maps across the
recursion.  Because all three are threaded linearly, the recursion is
exactly a stack-driven worklist: processing `dtoName` then continuing with
`rest` equals running the loop on `imports ++ rest`.  The embedding uses
that worklist form, which terminates by the measure below (every processed
name with a backing schema pair enters `visited` and never leaves). -/

/-- The maps shared by `collectAndOrderAllDtos` and `collectDto`. -/
structure CollectState where
  allDtos : List (String × DtoSchema)
  dependencies : List (String × List String)
deriving DecidableEq, Repr

/-- A schema name whose original and resolved schemas both exist — the
condition under which `collectDto` descends. -/
def okName (spec : Spec) (n : String) : Bool :=
  (spec.originalSchemas.bind (fun os => List.lookup n os)).isSome &&
    (List.lookup n spec.schemas).isSome

/-- Every dto name that can make `collectDto` descend is one of these:
`s ++ "Dto"` or `s` itself for an `okName` key `s`. -/
def okDtoNames (spec : Spec) : List String :=
  ((spec.schemas.map Prod.fst).filter (okName spec)).map (· ++ "Dto") ++
    (spec.schemas.map Prod.fst).filter (okName spec)

theorem contains_true_iff (l : List String) (a : String) :
    l.contains a = true ↔ a ∈ l :=
  List.elem_iff

theorem contains_false_iff (l : List String) (a : String) :
    l.contains a = false ↔ ¬ a ∈ l := by
  rw [Bool.eq_false_iff]
  exact not_congr (contains_true_iff l a)

theorem lookup_isSome_mem_keys {β : Type} (l : List (String × β)) (a : String)
    (h : (List.lookup a l).isSome = true) : a ∈ l.map Prod.fst := by
  induction l with
  | nil => simp [List.lookup] at h
  | cons x xs ih =>
    cases x with
    | mk k v =>
      by_cases hx : a == k
      · have hak : a = k := by simpa using hx
        simp [hak]
      · have hx' : (a == k) = false := by simpa using hx
        simp only [List.lookup, hx'] at h
        simp [ih h]

/-- A name that makes the lookups succeed is in `okDtoNames`. -/
theorem mem_okDtoNames_of_lookups (spec : Spec) (d : String)
    (ho : (spec.originalSchemas.bind
      (fun os => List.lookup (stripDtoSuffix d) os)).isSome)
    (hr : (List.lookup (stripDtoSuffix d) spec.schemas).isSome) :
    d ∈ okDtoNames spec := by
  have hkey : stripDtoSuffix d ∈ spec.schemas.map Prod.fst :=
    lookup_isSome_mem_keys _ _ hr
  have hok : okName spec (stripDtoSuffix d) = true := by
    simp [okName, ho, hr]
  unfold okDtoNames
  by_cases hsuffix : "Dto".data.isSuffixOf d.data = true
  · -- d ends in "Dto", so d = stripDtoSuffix d ++ "Dto"
    have hdecomp : stripDtoSuffix d ++ "Dto" = d := by
      rcases List.isSuffixOf_iff_suffix.mp hsuffix with ⟨t, ht⟩
      apply String.ext
      show (stripDtoSuffix d).data ++ "Dto".data = d.data
      have hstrip : stripDtoSuffix d = String.mk (d.data.take (d.data.length - 3)) := by
        unfold stripDtoSuffix
        rw [if_pos hsuffix]
      rw [hstrip]
      show d.data.take (d.data.length - 3) ++ "Dto".data = d.data
      have hlen : d.data.length = t.length + 3 := by
        rw [← ht]
        simp [List.length_append]
      rw [hlen]
      simp only [Nat.add_sub_cancel]
      rw [← ht]
      congr 1
      rw [List.take_append_of_le_length (by omega)]
      simp
    rw [← hdecomp]
    exact List.mem_append_left _
      (List.mem_map.mpr ⟨_, List.mem_filter.mpr ⟨hkey, hok⟩, rfl⟩)
  · apply List.mem_append_right
    have hid : stripDtoSuffix d = d := by
      unfold stripDtoSuffix
      rw [if_neg hsuffix]
    rw [hid] at hkey hok
    exact List.mem_filter.mpr ⟨hkey, hok⟩

/-- The per-name work weight of the collect loop: processing a
descendable dto name pushes its import list; any other pending name costs
one step. -/
def importWeight (spec : Spec) (d : String) : Nat :=
  match spec.originalSchemas.bind (fun os => List.lookup (stripDtoSuffix d) os) with
  | some os => (processSchema spec d os).imports.length + 1
  | none => 1

/-- Work-fuel budget sufficient for any single `collectLoop` run. -/
def collectFuel (spec : Spec) (pending : List String) : Nat :=
  pending.length + (((okDtoNames spec).map (importWeight spec)).sum) + 1

/-- The worklist form of `collectDto`: process the pending stack of dto
names; a processed name with both schemas present contributes a descriptor
and pushes its imports in front.  The unbounded recursion of the source
gets an explicit work fuel, decremented per step; callers supply
`collectFuel`, which suffices for the run to complete exactly as the
unbounded recursion would (see the fuel-irrelevance lemma). -/
def collectLoop (spec : Spec) :
    Nat → List String → List String → CollectState → CollectState
  | 0, _, _, st => st
  | _ + 1, [], _, st => st
  | fuel + 1, dtoName :: rest, visited, st =>
    if st.allDtos.any (fun p => p.1 == dtoName) || visited.contains dtoName then
      collectLoop spec fuel rest visited st
    else
      let visited' := dtoName :: visited
      let schemaName := stripDtoSuffix dtoName
      match spec.originalSchemas.bind (fun os => List.lookup schemaName os),
            List.lookup schemaName spec.schemas with
      | some originalSchema, some _ =>
        let dtoSchema := processSchema spec dtoName originalSchema
        let st' : CollectState :=
          ⟨mapSet st.allDtos dtoName dtoSchema,
           mapSet st.dependencies dtoName dtoSchema.imports⟩
        collectLoop spec fuel (dtoSchema.imports ++ rest) visited' st'
      | _, _ => collectLoop spec fuel rest visited' st

/-- `collectAndOrderAllDtos(mainDto, spec)`: seed the maps with the main
descriptor, collect every reachable referenced DTO (each top-level import
starts with a fresh `visited` set, as in the source's default parameter),
then order by `topologicalSort`. -/
def collectAndOrderAllDtos (spec : Spec) (mainDto : DtoSchema) :
    List DtoSchema :=
  let st0 : CollectState :=
    ⟨[(mainDto.name, mainDto)], [(mainDto.name, mainDto.imports)]⟩
  let st := mainDto.imports.foldl
    (fun st imp => collectLoop spec (collectFuel spec [imp]) [imp] [] st) st0
  let sorted := topologicalSort st.dependencies
  sorted.filterMap (fun n => List.lookup n st.allDtos)

/-- The model batch produced by `generateDto(dtoName, schema, spec)` (the
template and enum assembly aside): process the main schema (original
variant when available), then collect and order all referenced DTOs. -/
def generateDtoBatch (spec : Spec) (dtoName : String) (schema : Schema) :
    List DtoSchema :=
  let originalSchema :=
    match spec.originalSchemas with
    | none => schema
    | some os => (List.lookup (stripDtoSuffix dtoName) os).getD schema
  let mainDto := processSchema spec dtoName originalSchema
  collectAndOrderAllDtos spec mainDto

end NestGen

namespace NestGen

/-! ### Controller generator (controller-generator.ts, the variant with
`sortParameters` and the union-building `getReturnType`) -/

/-- An operation parameter of the spec: `name`, `in`, `required`,
`schema`, `description`. -/
structure ParamSpec where
  name : String
  paramIn : String
  required : Bool
  schema : Option Schema
  description : Option String

/-- The compiled method parameter descriptor. -/
structure MethodParameter where
  name : String
  type : String
  decorator : String
  validationType : Option String
  required : Bool
  schema : Option Schema
  description : Option String
  parameterType : Option String

/-- The compiled request-body descriptor. -/
structure BodyParameter where
  type : String
  decorator : String

/-- A compiled response: `parseInt(status)` is modelled as `Option Nat`
(`none` for a non-numeric status key, i.e. `NaN`); the carried
`description` feeds no claim and is omitted. -/
structure MethodResponse where
  status : Option Nat
  type : String
deriving DecidableEq, Repr

/-- The hyphen-collapsing replacement of `toCamelCase` (the global regex
replacing a hyphen followed by a letter by the uppercased letter),
left-to-right and non-overlapping, as a one-character-lookbehind scan:
the flag records an unconsumed hyphen. -/
def toCamelCaseGo : List Char → Bool → List Char
  | [], pending => if pending then ['-'] else []
  | c :: rest, pending =>
    if pending then
      if c.isAlpha then c.toUpper :: toCamelCaseGo rest false
      else if c = '-' then '-' :: toCamelCaseGo rest true
      else '-' :: c :: toCamelCaseGo rest false
    else
      if c = '-' then toCamelCaseGo rest true
      else c :: toCamelCaseGo rest false

/-- `toCamelCase(str)`: uppercase the letter after each hyphen, then
lowercase a leading capital. -/
def toCamelCase (s : String) : String :=
  match toCamelCaseGo s.data false with
  | [] => ""
  | c :: cs => String.mk ((if c.isUpper then c.toLower else c) :: cs)

/-- `getParamType(schema)`: no schema yields `string`; `schema.type ||
'string'` (JS truthiness: the empty string falls back too); `integer`
becomes `number`. -/
def getParamType (schema : Option Schema) : String :=
  match schema with
  | none => "string"
  | some s =>
    let type :=
      match s.type with
      | none => "string"
      | some t => if t = "" then "string" else t
    if type = "integer" then "number" else type

/-- `processParameters(parameters)` of the controller generator. -/
def processParameters (parameters : List ParamSpec) : List MethodParameter :=
  parameters.map (fun param =>
    let type := getParamType param.schema
    let isRequired := param.required || param.paramIn == "path"
    let pn :=
      if param.paramIn == "header" then
        (toCamelCase param.name,
          "@Headers(\x27" ++ param.name ++ "\x27)")
      else if param.paramIn == "path" then
        (param.name, "@Param(\x27" ++ param.name ++ "\x27)")
      else
        (param.name,
          "@" ++ capitalizeJs param.paramIn ++ "(\x27" ++ param.name ++ "\x27)")
    { name := if isRequired then pn.1 else pn.1 ++ "?",
      type := type,
      decorator := pn.2,
      validationType := some type,
      required := isRequired,
      schema := param.schema,
      description := param.description,
      parameterType := some param.paramIn })

/-- `getParameterTypePriority`: path < body < query < header < other. -/
def getParameterTypePriority (p : MethodParameter) : Int :=
  match p.parameterType with
  | some "path" => 1
  | some "body" => 2
  | some "query" => 3
  | some "header" => 4
  | _ => 5

/-- `a.localeCompare(b)`, modelled as code-point comparison. -/
def localeCompareModel (a b : String) : Int :=
  if strLeB a b then (if strLeB b a then 0 else -1) else 1

/-- The comparator passed to `parameters.sort` in `sortParameters`. -/
def jsParamCmp (a b : MethodParameter) : Int :=
  if a.required && !b.required then -1
  else if !a.required && b.required then 1
  else
    let aPriority := getParameterTypePriority a
    let bPriority := getParameterTypePriority b
    if aPriority ≠ bPriority then aPriority - bPriority
    else localeCompareModel a.name b.name

/-- `sortParameters(parameters)`: `Array.prototype.sort` with `jsParamCmp`
(stable per ECMAScript 2019+, modelled by the stable `stableSort`). -/
def sortParameters (parameters : List MethodParameter) : List MethodParameter :=
  stableSort (fun a b => decide (jsParamCmp a b ≤ 0)) parameters

/-- `getSchemaType(schema, originalRef)`. -/
def getSchemaType (schema : Schema) (originalRef : Option String) : String :=
  if truthyStr originalRef then refLastSegment (originalRef.getD "") ++ "Dto"
  else if truthyStr schema.ref then refLastSegment (schema.ref.getD "") ++ "Dto"
  else if schema.type == some "array" then
    match schema.items with
    | some it =>
      if truthyStr it.ref then refLastSegment (it.ref.getD "") ++ "Dto[]"
      else "any[]"
    | none => "any[]"
  else "any"

/-- `processRequestBody`: `jsonSchema` stands for
`requestBody?.content?.['application/json']?.schema` (all absences
collapse to `none`); `originalRef` is the `$ref` recovered from the
original spec by `findOriginalSchemaRef`, when any. -/
def processRequestBody (jsonSchema : Option Schema)
    (originalRef : Option String) : Option BodyParameter :=
  match jsonSchema with
  | none => none
  | some schema =>
    some { type := getSchemaType schema originalRef, decorator := "@Body()" }

/-- The synthetic always-required parameter of kind `body` built in
`processOperation` when a request body exists. -/
def bodyAsParam (b : BodyParameter) : MethodParameter :=
  { name := "body", type := b.type, decorator := b.decorator,
    validationType := none, required := true, schema := none,
    description := none, parameterType := some "body" }

/-- The sorted combined parameter list (`allParameters` of
`processOperation`): spec parameters plus the synthetic body parameter,
run through `sortParameters`. -/
def operationSortedParams (parameters : List ParamSpec)
    (jsonBodySchema : Option Schema) (bodyOriginalRef : Option String) :
    List MethodParameter :=
  let allParameters := processParameters parameters
  let bodyParam := processRequestBody jsonBodySchema bodyOriginalRef
  let allMethodParams :=
    allParameters ++ (match bodyParam with | some b => [bodyAsParam b] | none => [])
  sortParameters allMethodParams

/-- `r.status >= 200 && r.status < 300` (false for `NaN`). -/
def is2xx (r : MethodResponse) : Bool :=
  match r.status with
  | some n => 200 ≤ n && n < 300
  | none => false

/-- `array.filter((t, i, a) => a.indexOf(t) === i)`: keep the first
occurrence of each element (an element is kept at position `i` exactly
when it did not occur earlier). -/
def dedupFirstIndex (l : List String) : List String := go [] l
where
  go (seen : List String) : List String → List String
    | [] => []
    | x :: xs => if seen.contains x then go seen xs else x :: go (seen ++ [x]) xs

/-- `getReturnType(method)` of the union-building controller generator. -/
def getReturnType (includeErrorTypesInReturnType : Bool)
    (responses : List MethodResponse) : String :=
  let rs := if includeErrorTypesInReturnType then responses
            else responses.filter is2xx
  if rs.length == 0 then "void"
  else
    let responseTypes :=
      dedupFirstIndex ((rs.map (fun r => r.type)).filter
        (fun t => t != "void" && t != "any"))
    match responseTypes with
    | [] => if rs.any (fun r => r.type != "void") then "any" else "void"
    | [t] => t
    | ts => String.intercalate " | " ts

end NestGen

namespace NestGen

/-- `s.includes(pat)` (substring test). -/
def strIncludes (s pat : String) : Bool :=
  decide (pat.data <:+: s.data)

/-- `str.replace('?', '')`: drop the first question mark only (the JS
string-pattern `replace` replaces a single occurrence). -/
def removeFirstQMark (s : String) : String := String.mk (go s.data)
where
  go : List Char → List Char
    | [] => []
    | c :: rest => if c = '?' then rest else c :: go rest

/-- `getTypeClass(type)`. -/
def getTypeClass (type : String) : String :=
  if type = "string" then "String"
  else if type = "number" then "Number"
  else if type = "boolean" then "Boolean"
  else type

/-- JS boolean interpolation. -/
def boolStr (b : Bool) : String := if b then "true" else "false"

/-- Interpolation of a parsed status (`NaN` prints as `"NaN"`). -/
def statusStr (st : Option Nat) : String :=
  match st with
  | some n => toString n
  | none => "NaN"

/-- Try to match the regex capturing the argument of `@Headers('...')` at
the head of the character list: the literal `@Headers('`, then at least
one character other than a quote, then `')`. -/
def headersCaptureAt (l : List Char) : Option (List Char) :=
  match dropLit "@Headers(\x27".data l with
  | none => none
  | some rest =>
    let cap := rest.takeWhile (fun c => c ≠ '\x27')
    if cap.isEmpty then none
    else
      match rest.drop cap.length with
      | '\x27' :: ')' :: _ => some cap
      | _ => none
where
  dropLit : List Char → List Char → Option (List Char)
    | [], rest => some rest
    | _, [] => none
    | p :: ps, c :: cs => if p = c then dropLit ps cs else none

/-- `dec.match` of the `@Headers` capture regex, scanning left to right,
with `?.[1]` giving the first capture. -/
def extractHeadersArg (dec : String) : Option String := go dec.data
where
  go : List Char → Option String
    | [] => none
    | l@(_ :: rest) =>
      match headersCaptureAt l with
      | some cap => some (String.mk cap)
      | none => go rest

/-- `buildDecorators(operation, parameters, responses)` (the variant with
the `@ApiHeader` section).  `summary` stands for `operation.summary`. -/
def buildDecorators (summary : Option String)
    (parameters : List MethodParameter) (responses : List MethodResponse) :
    List String :=
  let base : List String :=
    if truthyStr summary then
      ["@ApiOperation(\x7b summary: \x27" ++ summary.getD "" ++ "\x27 \x7d)"]
    else []
  let paramDecs :=
    (parameters.filter (fun p => strIncludes p.decorator "@Param")).map (fun p =>
      let cleanType := removeFirstQMark p.type
      let typeClass := getTypeClass cleanType
      "@ApiParam(\x7b name: \x27" ++ p.name ++ "\x27, type: " ++ typeClass ++ " \x7d)")
  let queryDecs :=
    (parameters.filter (fun p => strIncludes p.decorator "@Query")).map (fun p =>
      let cleanType := removeFirstQMark p.type
      let typeClass := getTypeClass cleanType
      let cleanName := removeFirstQMark p.name
      "@ApiQuery(\x7b name: \x27" ++ cleanName ++ "\x27, type: " ++ typeClass ++
        ", required: " ++ boolStr p.required ++ " \x7d)")
  let headerDecs :=
    (parameters.filter (fun p => strIncludes p.decorator "@Headers")).map (fun p =>
      let cleanName := removeFirstQMark p.name
      let headerName := (extractHeadersArg p.decorator).getD cleanName
      let schemaProps : List String :=
        match p.schema with
        | some sch =>
          (if truthyStr sch.type then
            ["type: \x27" ++ sch.type.getD "" ++ "\x27"] else []) ++
          (if truthyStr sch.pattern then
            ["pattern: \x27" ++ sch.pattern.getD "" ++ "\x27"] else []) ++
          (if truthyStr sch.format then
            ["format: \x27" ++ sch.format.getD "" ++ "\x27"] else [])
        | none => []
      let description :=
        if truthyStr p.description then p.description.getD ""
        else headerName ++ " header parameter"
      let schemaStr :=
        if schemaProps.length > 0 then
          ", schema: \x7b " ++ String.intercalate ", " schemaProps ++ " \x7d"
        else ""
      "@ApiHeader(\x7b name: \x27" ++ headerName ++ "\x27, description: \x27" ++
        description ++ "\x27, required: " ++ boolStr p.required ++ schemaStr ++ " \x7d)")
  let responseDecs :=
    responses.map (fun r =>
      let options :=
        if r.type != "void" && r.type != "any" && r.status != some 204 then
          "\x7b status: " ++ statusStr r.status ++ ", type: " ++ r.type ++ " \x7d"
        else "\x7b status: " ++ statusStr r.status ++ " \x7d"
      "@ApiResponse(" ++ options ++ ")")
  let httpCode :=
    match responses.find? is2xx with
    | some r =>
      if r.status != some 200 && r.status != some 201 then
        ["@HttpCode(" ++ statusStr r.status ++ ")"]
      else []
    | none => []
  base ++ paramDecs ++ queryDecs ++ headerDecs ++ responseDecs ++ httpCode

/-- One compiled endpoint input: the operation data consumed by the
modelled controller-generator paths. -/
structure EndpointInput where
  summary : Option String
  parameters : List ParamSpec
  jsonBodySchema : Option Schema
  bodyOriginalRef : Option String
  responses : List MethodResponse

/-- The endpoint-descriptor portion computed from one operation: sorted
parameters, decorators, synthesized return type. -/
def compileEndpoint (includeErrorTypesInReturnType : Bool)
    (op : EndpointInput) : List MethodParameter × List String × String :=
  (operationSortedParams op.parameters op.jsonBodySchema op.bodyOriginalRef,
   buildDecorators op.summary (processParameters op.parameters) op.responses,
   getReturnType includeErrorTypesInReturnType op.responses)

/-- One full generation pass over a parsed document: the dto batch plus
the endpoint descriptors.  The source keeps no state across passes (the
generator instances hold only the template loader and the immutable
error-inclusion flag), so a pass is a function of the parsed document
alone. -/
def generationPass (spec : Spec) (includeErrorTypesInReturnType : Bool)
    (ops : List EndpointInput) :
    DtoBatch × List (List MethodParameter × List String × String) :=
  (generateAllDtos spec, ops.map (compileEndpoint includeErrorTypesInReturnType))

end NestGen

namespace NestGen

/-! ### Concrete fixture schemas used by witnesses and counterexamples -/

/-- A bare `$ref` schema node. -/
def fixRef (r : String) : Schema := .mk (some r) none none [] none none none none

/-- An object schema with the given properties and required list. -/
def fixObj (props : List (String × Schema)) (req : List String) : Schema :=
  .mk none (some "object") (some props) req none none none none

/-- A string schema carrying an enum. -/
def fixStrEnum (vals : List String) : Schema :=
  .mk none (some "string") none [] none (some vals) none none

/-- An array schema. -/
def fixArr (it : Schema) : Schema :=
  .mk none (some "array") none [] (some it) none none none

/-- A bare schema with only a declared `type`. -/
def fixTyped (t : Option String) : Schema := .mk none t none [] none none none none

end NestGen

namespace NestGen

/-- C10. The claim requires a non-`integer` declared type string to pass
through unchanged, but the source computes `schema.type || 'string'`: the
empty string is falsy in JS, so the declared type `""` maps to `"string"`
rather than being passed through. -/
theorem getParamType_empty_type_counterexample :
    (fixTyped (some "")).type = some "" ∧ ("" : String) ≠ "integer" ∧
      getParamType (some (fixTyped (some ""))) ≠ "" := by
  refine ⟨rfl, by decide, by decide⟩

/-- C10 (amended): absent schema or absent type map to `"string"`;
`"integer"` maps to `"number"`; the empty declared type string also falls
back to `"string"` (JS truthiness of `schema.type || 'string'`); every
other declared type is passed through unchanged. -/
theorem getParamType_spec :
    getParamType none = "string" ∧
    (∀ s : Schema, s.type = none → getParamType (some s) = "string") ∧
    (∀ s : Schema, s.type = some "" → getParamType (some s) = "string") ∧
    (∀ s : Schema, s.type = some "integer" → getParamType (some s) = "number") ∧
    (∀ (s : Schema) (t : String), s.type = some t → t ≠ "" → t ≠ "integer" →
      getParamType (some s) = t) := by
  refine ⟨rfl, ?_, ?_, ?_, ?_⟩
  · intro s h
    simp [getParamType, h]
  · intro s h
    simp [getParamType, h]
  · intro s h
    simp [getParamType, h]
  · intro s t h hne hni
    simp [getParamType, h, hne, hni]

/-- C10 witness: the amended theorem applied at the declared type
`boolean`. -/
theorem getParamType_spec_witness :
    (fixTyped (some "boolean")).type = some "boolean" ∧
      ("boolean" : String) ≠ "" ∧ ("boolean" : String) ≠ "integer" ∧
      getParamType (some (fixTyped (some "boolean"))) = "boolean" :=
  ⟨rfl, by decide, by decide,
    getParamType_spec.2.2.2.2 (fixTyped (some "boolean")) "boolean" rfl
      (by decide) (by decide)⟩

/-- C9. One generation pass is a pure function of the parsed document and
the (constructor-fixed) error-inclusion flag: the embedded pipeline keeps
no state across passes, so running it twice on the same input yields
identical descriptor batches. -/
theorem generationPass_deterministic (spec : Spec) (flag : Bool)
    (ops : List EndpointInput) :
    (generationPass spec flag ops, generationPass spec flag ops).1 =
      (generationPass spec flag ops, generationPass spec flag ops).2 :=
  rfl

end NestGen

namespace NestGen

/-- A decorator string is a status-pinning marker when it is
`@HttpCode(` followed by anything. -/
def IsHttpCodeMarker (d : String) : Prop :=
  ∃ t : String, d = "@HttpCode(" ++ t

/-- C8. The endpoint carries `@HttpCode` with the status of its first 2xx
response exactly when that status is neither 200 nor 201; with a first 2xx
status of 200/201, or with no 2xx response at all, no `@HttpCode` marker
appears among the emitted decorators. -/
theorem buildDecorators_httpCode (summary : Option String)
    (parameters : List MethodParameter) (responses : List MethodResponse) :
    (∀ r, responses.find? is2xx = some r → r.status ≠ some 200 →
       r.status ≠ some 201 →
       ("@HttpCode(" ++ statusStr r.status ++ ")") ∈
         buildDecorators summary parameters responses) ∧
    (∀ r, responses.find? is2xx = some r →
       (r.status = some 200 ∨ r.status = some 201) →
       ∀ d ∈ buildDecorators summary parameters responses, ¬ IsHttpCodeMarker d) ∧
    (responses.find? is2xx = none →
       ∀ d ∈ buildDecorators summary parameters responses, ¬ IsHttpCodeMarker d) := by
  have hshape : ∀ d ∈ buildDecorators summary parameters responses,
      IsHttpCodeMarker d →
      ∃ r, responses.find? is2xx = some r ∧
        (r.status != some 200 && r.status != some 201) = true ∧
        d = "@HttpCode(" ++ statusStr r.status ++ ")" := by
    intro d hd hmark
    obtain ⟨t, rfl⟩ := hmark
    simp only [buildDecorators, List.mem_append] at hd
    rcases hd with ((((hb | hp) | hq) | hh) | hr) | hc
    · by_cases hs : truthyStr summary = true
      · rw [if_pos hs] at hb
        simp only [List.mem_singleton] at hb
        have := congrArg String.data hb
        simp [String.data_append] at this
      · rw [if_neg hs] at hb
        simp at hb
    · simp only [List.mem_map] at hp
      obtain ⟨p, _, hp⟩ := hp
      have := congrArg String.data hp
      simp [String.data_append] at this
    · simp only [List.mem_map] at hq
      obtain ⟨p, _, hq⟩ := hq
      have := congrArg String.data hq
      simp [String.data_append] at this
    · simp only [List.mem_map] at hh
      obtain ⟨p, _, hh⟩ := hh
      have := congrArg String.data hh
      simp [String.data_append] at this
    · simp only [List.mem_map] at hr
      obtain ⟨p, _, hr⟩ := hr
      by_cases hcond :
          (p.type != "void" && p.type != "any" && p.status != some 204) = true
      · rw [if_pos hcond] at hr
        have := congrArg String.data hr
        simp [String.data_append] at this
      · rw [if_neg hcond] at hr
        have := congrArg String.data hr
        simp [String.data_append] at this
    · match hfind : responses.find? is2xx with
      | some r =>
        rw [hfind] at hc
        have hc' : "@HttpCode(" ++ t ∈
            (if (r.status != some 200 && r.status != some 201) = true then
              ["@HttpCode(" ++ statusStr r.status ++ ")"] else []) := hc
        by_cases hcond : (r.status != some 200 && r.status != some 201) = true
        · rw [if_pos hcond] at hc'
          simp only [List.mem_singleton] at hc'
          exact ⟨r, rfl, hcond, hc'⟩
        · rw [if_neg hcond] at hc'
          exact absurd hc' (List.not_mem_nil _)
      | none =>
        rw [hfind] at hc
        have hc' : "@HttpCode(" ++ t ∈ ([] : List String) := hc
        exact absurd hc' (List.not_mem_nil _)
  refine ⟨?_, ?_, ?_⟩
  · intro r hfind h200 h201
    simp only [buildDecorators, hfind]
    have hcond : (r.status != some 200 && r.status != some 201) = true := by
      simp [h200, h201]
    rw [hcond]
    simp
  · intro r hfind hstat d hd hmark
    obtain ⟨r', hfind', hcond', _⟩ := hshape d hd hmark
    rw [hfind] at hfind'
    cases hfind'
    rcases hstat with h | h <;> simp [h] at hcond'
  · intro hfind d hd hmark
    obtain ⟨r', hfind', _, _⟩ := hshape d hd hmark
    rw [hfind] at hfind'
    cases hfind'

/-- C8 witness: a lone 204 response is pinned; evaluated concretely. -/
theorem buildDecorators_httpCode_witness :
    ([⟨some 204, "void"⟩] : List MethodResponse).find? is2xx =
        some ⟨some 204, "void"⟩ ∧
      ("@HttpCode(" ++ statusStr (some 204) ++ ")") ∈
        buildDecorators none [] [⟨some 204, "void"⟩] :=
  ⟨by decide,
    (buildDecorators_httpCode none [] [⟨some 204, "void"⟩]).1
      ⟨some 204, "void"⟩ (by decide) (by decide) (by decide)⟩

end NestGen

namespace NestGen

/-! ### C3: the synthesized return type -/

/-- The status key used to speak about ascending status order (`NaN`
sorts as 0 here; the claim concerns numeric statuses). -/
def statusKey (r : MethodResponse) : Nat := r.status.getD 0

/-- Spec-side de-duplication, keeping the first appearance. -/
def specDedup : List String → List String
  | [] => []
  | x :: xs => x :: specDedup (xs.filter (fun y => y != x))
termination_by l => l.length
decreasing_by simp_wf; exact Nat.lt_succ_of_le (List.length_filter_le _ _)

/-- Modelled from the spec: the return type as §4.6 words it — order the
responses by ascending status (stably), keep the 2xx ones (all of them
under the error-inclusion flag), drop `"void"` and `"any"` type
expressions, de-duplicate preserving first appearance; no type left means
`"any"` when a non-void response existed and `"void"` otherwise; one type
is returned alone; several are joined with `" | "`. -/
def returnTypeSpec (includeErrors : Bool) (responses : List MethodResponse) :
    String :=
  let ordered := stableSort (fun a b => decide (statusKey a ≤ statusKey b)) responses
  let eligible := if includeErrors then ordered else ordered.filter is2xx
  let kept := specDedup ((eligible.map (fun r => r.type)).filter
    (fun t => decide (t ≠ "void" ∧ t ≠ "any")))
  match kept with
  | [] => if eligible.any (fun r => decide (r.type ≠ "void")) then "any" else "void"
  | [t] => t
  | ts => String.intercalate " | " ts

theorem contains_append (l1 l2 : List String) (a : String) :
    (l1 ++ l2).contains a = (l1.contains a || l2.contains a) := by
  induction l1 with
  | nil => simp [List.contains]
  | cons x xs ih => by_cases h : a == x <;> simp_all [List.contains, List.elem_cons]

theorem dedupFirstIndex_go_eq (l : List String) : ∀ seen : List String,
    dedupFirstIndex.go seen l = specDedup (l.filter (fun y => !seen.contains y)) := by
  induction l with
  | nil => intro seen; simp [dedupFirstIndex.go, specDedup]
  | cons x xs ih =>
    intro seen
    by_cases hx : seen.contains x = true
    · rw [dedupFirstIndex.go, if_pos hx]
      rw [List.filter_cons_of_neg (by simp [(contains_true_iff _ _).mp hx])]
      exact ih seen
    · have hx' : seen.contains x = false := by
        cases h : seen.contains x
        · rfl
        · exact absurd h hx
      rw [dedupFirstIndex.go, if_neg hx]
      rw [List.filter_cons_of_pos
        (by simp [(contains_false_iff _ _).mp hx'])]
      rw [specDedup, ih (seen ++ [x]), List.filter_filter]
      congr 2
      apply List.filter_congr
      intro y _
      rw [contains_append]
      cases hys : seen.contains y <;> by_cases hyx : y = x <;>
        simp [List.contains, List.elem_cons, hyx, hys]

/-- `array.filter((t, i, a) => a.indexOf(t) === i)` keeps exactly the
first occurrences, i.e. equals the spec-side de-duplication. -/
theorem dedupFirstIndex_eq_specDedup (l : List String) :
    dedupFirstIndex l = specDedup l := by
  rw [dedupFirstIndex, dedupFirstIndex_go_eq]
  congr 1
  apply List.filter_eq_self.mpr
  intro a _
  simp [List.contains]

end NestGen

namespace NestGen

/-! ### Order lemmas for the structural stable sort -/

theorem charListLe_refl : ∀ l : List Char, charListLe l l = true := by
  intro l
  induction l with
  | nil => rfl
  | cons c cs ih => simp [charListLe, lt_irrefl, ih]

theorem charListLe_total : ∀ a b : List Char,
    charListLe a b = true ∨ charListLe b a = true := by
  intro a
  induction a with
  | nil => intro b; left; rfl
  | cons c cs ih =>
    intro b
    cases b with
    | nil => right; rfl
    | cons d ds =>
      rcases lt_trichotomy c d with h | h | h
      · left; simp [charListLe, h]
      · subst h
        rcases ih ds with h2 | h2
        · left; simp [charListLe, lt_irrefl, h2]
        · right; simp [charListLe, lt_irrefl, h2]
      · right; simp [charListLe, h]

theorem charListLe_cons_self (c : Char) (as bs : List Char) :
    charListLe (c :: as) (c :: bs) = charListLe as bs := by
  simp [charListLe, lt_irrefl]

theorem charListLe_trans : ∀ a b c : List Char,
    charListLe a b = true → charListLe b c = true → charListLe a c = true := by
  intro a
  induction a with
  | nil => intro b c _ _; rfl
  | cons x xs ih =>
    intro b c hab hbc
    cases b with
    | nil => simp [charListLe] at hab
    | cons y ys =>
      cases c with
      | nil => simp [charListLe] at hbc
      | cons z zs =>
        simp only [charListLe] at hab hbc ⊢
        rcases lt_trichotomy x y with h1 | h1 | h1
        · rcases lt_trichotomy y z with h2 | h2 | h2
          · simp [lt_trans h1 h2]
          · subst h2; simp [h1]
          · simp [h2, not_lt_of_gt h2] at hbc
        · subst h1
          rcases lt_trichotomy x z with h2 | h2 | h2
          · simp [h2]
          · subst h2
            rw [if_neg (lt_irrefl x), if_neg (lt_irrefl x)] at hab hbc ⊢
            exact ih _ _ hab hbc
          · simp [h2, not_lt_of_gt h2] at hbc
        · simp [h1, not_lt_of_gt h1] at hab

theorem charListLe_antisymm : ∀ a b : List Char,
    charListLe a b = true → charListLe b a = true → a = b := by
  intro a
  induction a with
  | nil =>
    intro b _ hba
    cases b with
    | nil => rfl
    | cons y ys => simp [charListLe] at hba
  | cons x xs ih =>
    intro b hab hba
    cases b with
    | nil => simp [charListLe] at hab
    | cons y ys =>
      simp only [charListLe] at hab hba
      rcases lt_trichotomy x y with h | h | h
      · simp [h, not_lt_of_gt h] at hba
      · subst h
        rw [if_neg (lt_irrefl x), if_neg (lt_irrefl x)] at hab hba
        rw [ih ys hab hba]
      · simp [h, not_lt_of_gt h] at hab

theorem strLeB_refl (a : String) : strLeB a a = true := charListLe_refl _

theorem strLeB_total (a b : String) : strLeB a b = true ∨ strLeB b a = true :=
  charListLe_total _ _

theorem strLeB_trans {a b c : String} (h1 : strLeB a b = true)
    (h2 : strLeB b c = true) : strLeB a c = true :=
  charListLe_trans _ _ _ h1 h2

theorem strLeB_antisymm {a b : String} (h1 : strLeB a b = true)
    (h2 : strLeB b a = true) : a = b :=
  String.ext (charListLe_antisymm _ _ h1 h2)

theorem insertSorted_perm {α : Type} (le : α → α → Bool) (x : α) :
    ∀ l : List α, (insertSorted le x l).Perm (x :: l) := by
  intro l
  induction l with
  | nil => simp [insertSorted]
  | cons y ys ih =>
    by_cases h : le x y = true
    · simp [insertSorted, h]
    · simp only [insertSorted, h, Bool.false_eq_true, if_false]
      exact (ih.cons y).trans (List.Perm.swap x y ys)

theorem stableSort_perm {α : Type} (le : α → α → Bool) :
    ∀ l : List α, (stableSort le l).Perm l := by
  intro l
  induction l with
  | nil => simp [stableSort]
  | cons x xs ih =>
    exact (insertSorted_perm le x (stableSort le xs)).trans (ih.cons x)

theorem insertSorted_sorted {α : Type} (le : α → α → Bool)
    (htrans : ∀ a b c, le a b = true → le b c = true → le a c = true)
    (htot : ∀ a b, le a b = true ∨ le b a = true) (x : α) :
    ∀ l : List α, l.Pairwise (fun a b => le a b = true) →
      (insertSorted le x l).Pairwise (fun a b => le a b = true) := by
  intro l
  induction l with
  | nil => intro _; simp [insertSorted]
  | cons y ys ih =>
    intro hp
    rcases List.pairwise_cons.mp hp with ⟨hy, hys⟩
    by_cases h : le x y = true
    · rw [insertSorted, if_pos h]
      refine List.pairwise_cons.mpr ⟨?_, hp⟩
      intro z hz
      rcases List.mem_cons.mp hz with rfl | hz
      · exact h
      · exact htrans x y z h (hy z hz)
    · rw [insertSorted, if_neg h]
      have hyx : le y x = true := by
        rcases htot x y with h2 | h2
        · exact absurd h2 h
        · exact h2
      refine List.pairwise_cons.mpr ⟨?_, ih hys⟩
      intro z hz
      have hz' := (insertSorted_perm le x ys).mem_iff.mp hz
      rcases List.mem_cons.mp hz' with rfl | hz2
      · exact hyx
      · exact hy z hz2

theorem stableSort_sorted {α : Type} (le : α → α → Bool)
    (htrans : ∀ a b c, le a b = true → le b c = true → le a c = true)
    (htot : ∀ a b, le a b = true ∨ le b a = true) :
    ∀ l : List α, (stableSort le l).Pairwise (fun a b => le a b = true) := by
  intro l
  induction l with
  | nil => simp [stableSort]
  | cons x xs ih => exact insertSorted_sorted le htrans htot x _ ih

theorem stableSort_eq_self_of_sorted {α : Type} (le : α → α → Bool) :
    ∀ l : List α, l.Pairwise (fun a b => le a b = true) →
      stableSort le l = l := by
  intro l
  induction l with
  | nil => intro _; rfl
  | cons x xs ih =>
    intro hp
    rcases List.pairwise_cons.mp hp with ⟨hx, hxs⟩
    rw [stableSort, ih hxs]
    cases xs with
    | nil => rfl
    | cons y ys => rw [insertSorted, if_pos (hx y (by simp))]

theorem insertSorted_filter_of_le {α : Type} (le : α → α → Bool)
    (p : α → Bool) (x : α) (hx : p x = true) :
    ∀ l : List α, (∀ y ∈ l, p y = true → le x y = true) →
      (insertSorted le x l).filter p = x :: l.filter p := by
  intro l
  induction l with
  | nil => intro _; simp [insertSorted, hx]
  | cons y ys ih =>
    intro hle
    by_cases h : le x y = true
    · rw [insertSorted, if_pos h, List.filter_cons, if_pos hx]
    · rw [insertSorted, if_neg h]
      have hpy : p y = false := by
        cases hpy : p y
        · rfl
        · exact absurd (hle y (by simp) hpy) h
      rw [List.filter_cons, if_neg (by simp [hpy]), List.filter_cons,
        if_neg (by simp [hpy])]
      exact ih (fun z hz hpz => hle z (by simp [hz]) hpz)

theorem insertSorted_filter_of_neg {α : Type} (le : α → α → Bool)
    (p : α → Bool) (x : α) (hx : p x = false) :
    ∀ l : List α, (insertSorted le x l).filter p = l.filter p := by
  intro l
  induction l with
  | nil => simp [insertSorted, hx]
  | cons y ys ih =>
    by_cases h : le x y = true
    · rw [insertSorted, if_pos h, List.filter_cons, if_neg (by simp [hx])]
    · rw [insertSorted, if_neg h, List.filter_cons, List.filter_cons, ih]

/-- Stability of `stableSort` for any class of mutually tied elements:
their subsequence is untouched. -/
theorem stableSort_filter {α : Type} (le : α → α → Bool) (p : α → Bool)
    (hcond : ∀ a b, p a = true → p b = true → le a b = true) :
    ∀ l : List α, (stableSort le l).filter p = l.filter p := by
  intro l
  induction l with
  | nil => rfl
  | cons x xs ih =>
    cases hx : p x
    · rw [stableSort, insertSorted_filter_of_neg le p x hx, ih,
        List.filter_cons, if_neg (by simp [hx])]
    · rw [stableSort,
        insertSorted_filter_of_le le p x hx _ (fun y _ hy => hcond x y hx hy),
        ih, List.filter_cons, if_pos hx]


/-- C3. On a response list in ascending status order, `getReturnType`
computes exactly the spec's words (`returnTypeSpec`): 2xx responses (all
of them under the error-inclusion flag), `"void"`/`"any"` dropped,
de-duplicated in first-appearance order, with the `"any"`/`"void"`/
single/union case split; and the spec's worked example
`200→Item, 202→Item, 206→PartialItem ⇒ "ItemDto | PartialItemDto"`
holds concretely. -/
theorem getReturnType_matches_spec (flag : Bool) (rs : List MethodResponse)
    (hsort : rs.Pairwise (fun a b => statusKey a ≤ statusKey b)) :
    getReturnType flag rs = returnTypeSpec flag rs ∧
    getReturnType false
      [⟨some 200, "ItemDto"⟩, ⟨some 202, "ItemDto"⟩, ⟨some 206, "PartialItemDto"⟩]
      = "ItemDto | PartialItemDto" := by
  constructor
  · have hms : stableSort (fun a b => decide (statusKey a ≤ statusKey b)) rs = rs :=
      stableSort_eq_self_of_sorted _ rs (hsort.imp (fun h => decide_eq_true h))
    have hfilt : (fun t : String => t != "void" && t != "any") =
        (fun t : String => decide (t ≠ "void" ∧ t ≠ "any")) := by
      funext t
      by_cases h1 : t = "void" <;> by_cases h2 : t = "any" <;> simp [h1, h2]
    have hany : (fun r : MethodResponse => r.type != "void") =
        (fun r : MethodResponse => decide (r.type ≠ "void")) := by
      funext r
      by_cases h : r.type = "void" <;> simp [h]
    simp only [getReturnType, returnTypeSpec]
    rw [hms]
    rw [dedupFirstIndex_eq_specDedup, hfilt, hany]
    cases hE : (if flag then rs else rs.filter is2xx) with
    | nil => simp [specDedup]
    | cons e es => simp only [List.length_cons]; rfl
  · decide

/-- C3 witness: the equivalence applied to the concrete ascending
response list of the spec's example. -/
theorem getReturnType_matches_spec_witness :
    ([⟨some 200, "ItemDto"⟩, ⟨some 202, "ItemDto"⟩,
        ⟨some 206, "PartialItemDto"⟩] : List MethodResponse).Pairwise
        (fun a b => statusKey a ≤ statusKey b) ∧
      getReturnType false
        [⟨some 200, "ItemDto"⟩, ⟨some 202, "ItemDto"⟩, ⟨some 206, "PartialItemDto"⟩]
        = returnTypeSpec false
        [⟨some 200, "ItemDto"⟩, ⟨some 202, "ItemDto"⟩, ⟨some 206, "PartialItemDto"⟩] :=
  ⟨by decide,
    (getReturnType_matches_spec false _ (by decide)).1⟩

end NestGen

namespace NestGen

/-! ### C4: parameter ordering -/

/-- The required tier: required parameters sort before optional ones. -/
def requiredRank (p : MethodParameter) : Nat := if p.required then 0 else 1

/-- Modelled from the spec's words (§4.7): the stable sort key —
required before optional, then kind priority path < body < query <
header < other, then alphabetical (code-point order) by the final
parameter name. -/
def specParamLe (a b : MethodParameter) : Bool :=
  decide (requiredRank a < requiredRank b ∨ (requiredRank a = requiredRank b ∧
    (getParameterTypePriority a < getParameterTypePriority b ∨
      (getParameterTypePriority a = getParameterTypePriority b ∧
        strLeB a.name b.name = true))))

theorem cmp_core_le_iff (a b : MethodParameter) :
    ((if getParameterTypePriority a ≠ getParameterTypePriority b
      then getParameterTypePriority a - getParameterTypePriority b
      else localeCompareModel a.name b.name) ≤ 0) ↔
    (getParameterTypePriority a < getParameterTypePriority b ∨
      (getParameterTypePriority a = getParameterTypePriority b ∧
        strLeB a.name b.name = true)) := by
  by_cases hp : getParameterTypePriority a = getParameterTypePriority b
  · rw [if_neg (not_not_intro hp)]
    unfold localeCompareModel
    cases hab : strLeB a.name b.name
    · rw [if_neg (by simp [hab])]
      simp only [hp, lt_irrefl, false_or, true_and]
      constructor
      · intro habs; norm_num at habs
      · intro habs; exact absurd habs (by simp [hab])
    · rw [if_pos (by simp)]
      simp only [hp, lt_irrefl, false_or, true_and]
      constructor
      · intro _; trivial
      · intro _
        cases strLeB b.name a.name <;> norm_num
  · rw [if_pos hp]
    simp only [hp, false_and, or_false]
    omega

theorem jsParamCmp_le_iff (a b : MethodParameter) :
    (jsParamCmp a b ≤ 0) ↔
      (requiredRank a < requiredRank b ∨ (requiredRank a = requiredRank b ∧
        (getParameterTypePriority a < getParameterTypePriority b ∨
          (getParameterTypePriority a = getParameterTypePriority b ∧
            strLeB a.name b.name = true)))) := by
  cases ha : a.required <;> cases hb : b.required <;>
    simp only [jsParamCmp, requiredRank, ha, hb, Bool.not_false, Bool.not_true,
      Bool.and_true, Bool.and_false, Bool.true_and, Bool.false_and,
      Bool.false_eq_true, if_false, if_true]
  · simpa using cmp_core_le_iff a b
  · constructor
    · intro habs; norm_num at habs
    · intro h
      rcases h with h | h
      · norm_num at h
      · exact absurd h.1 (by norm_num)
  · constructor
    · intro _; left; norm_num
    · intro _; norm_num
  · simpa using cmp_core_le_iff a b

/-- The two comparators coincide as boolean relations. -/
theorem sortParameters_eq_stableSort_spec (l : List MethodParameter) :
    sortParameters l = stableSort specParamLe l := by
  unfold sortParameters
  congr 1
  funext a b
  exact decide_eq_decide.mpr (jsParamCmp_le_iff a b) |>.trans rfl

/-- The spec's worked example parameter list: optional query `limit`,
required path `userId`, required header `X-Request-ID`, optional header
`X-Trace-Id`. -/
def fixC4Params : List ParamSpec :=
  [⟨"limit", "query", false, none, none⟩,
   ⟨"userId", "path", true, none, none⟩,
   ⟨"X-Request-ID", "header", true, none, none⟩,
   ⟨"X-Trace-Id", "header", false, none, none⟩]

/-- C4. The combined list (spec parameters plus the synthetic body
parameter when a request body exists) is sorted by the stable merge sort
on the spec's key — required tier, then kind priority path < body <
query < header < other, then the final parameter name; the synthetic body
parameter is always required and of kind `body`; and the spec's worked
example comes out as `[userId, X-Request-ID, limit, X-Trace-Id]` (with
header names camel-cased and optional names carrying `?`). -/
theorem operationSortedParams_spec :
    (∀ (params : List ParamSpec) (body : Option Schema) (ref : Option String),
      operationSortedParams params body ref =
        stableSort specParamLe
          (processParameters params ++
            (match processRequestBody body ref with
             | some b => [bodyAsParam b]
             | none => []))) ∧
    (∀ b, (bodyAsParam b).required = true ∧
      (bodyAsParam b).parameterType = some "body") ∧
    (operationSortedParams fixC4Params none none).map (fun p => p.name) =
      ["userId", "xRequestID", "limit?", "xTraceId?"] := by
  refine ⟨?_, ?_, ?_⟩
  · intro params body ref
    unfold operationSortedParams
    exact sortParameters_eq_stableSort_spec _
  · intro b
    exact ⟨rfl, rfl⟩
  · decide

end NestGen

namespace NestGen

/-! ### C6: inline objects matching an existing named schema reuse its name -/

/-- The code-point sort is invariant under permutation of the input:
two name lists with the same elements sort to the same list. -/
theorem stableSort_strLeB_eq_of_perm (l1 l2 : List String)
    (hp : l1.Perm l2) : stableSort strLeB l1 = stableSort strLeB l2 := by
  haveI : IsAntisymm String (fun a b => strLeB a b = true) :=
    ⟨fun a b h1 h2 => strLeB_antisymm h1 h2⟩
  exact List.eq_of_perm_of_sorted
    (((stableSort_perm strLeB l1).trans hp).trans
      (stableSort_perm strLeB l2).symm)
    (stableSort_sorted strLeB (fun _ _ _ h1 h2 => strLeB_trans h1 h2)
      strLeB_total l1)
    (stableSort_sorted strLeB (fun _ _ _ h1 h2 => strLeB_trans h1 h2)
      strLeB_total l2)

/-- `schemasMatch` succeeds on two schemas whose (duplicate-free)
property-name lists have the same members: sorting both name lists with
the JS default sort yields the same list, so lengths and lists agree. -/
theorem schemasMatch_of_name_set_eq (s t : Schema)
    (ps qs : List (String × Schema))
    (hps : s.properties = some ps) (hqs : t.properties = some qs)
    (h1 : (ps.map Prod.fst).Nodup) (h2 : (qs.map Prod.fst).Nodup)
    (hset : ∀ x, x ∈ ps.map Prod.fst ↔ x ∈ qs.map Prod.fst) :
    schemasMatch s t = true := by
  have hperm : (ps.map Prod.fst).Perm (qs.map Prod.fst) :=
    (List.perm_ext_iff_of_nodup h1 h2).mpr hset
  have heq := stableSort_strLeB_eq_of_perm _ _ hperm
  unfold schemasMatch
  rw [hps, hqs]
  simp [heq]

/-- C6. For every inline (non-`$ref`) object property schema `s` whose
duplicate-free property-name list has exactly the members of the
property-name list of some named schema of the document, `processProperty`
emits an existing model name `q.1 ++ "Dto"` for a document schema `q`
that `schemasMatch`es `s`, instead of synthesizing a nested model name:
the Type Mapper reuses the existing model. -/
theorem processProperty_reuses_matching_dto
    (spec : Spec) (name : String) (s : Schema) (isRequired : Bool)
    (imports : List String) (cur : Option String)
    (ps : List (String × Schema))
    (hty : s.type = some "object") (hps : s.properties = some ps)
    (href : truthyStr s.ref = false)
    (n : String) (t : Schema) (qs : List (String × Schema))
    (hmem : (n, t) ∈ spec.schemas) (hqs : t.properties = some qs)
    (h1 : (ps.map Prod.fst).Nodup) (h2 : (qs.map Prod.fst).Nodup)
    (hset : ∀ x, x ∈ ps.map Prod.fst ↔ x ∈ qs.map Prod.fst) :
    ∃ q ∈ spec.schemas, schemasMatch s q.2 = true ∧
      (processProperty spec name s isRequired imports cur).1.type
        = q.1 ++ "Dto" := by
  have hmatch : schemasMatch s t = true :=
    schemasMatch_of_name_set_eq s t ps qs hps hqs h1 h2 hset
  cases hfind : spec.schemas.find? (fun p => schemasMatch s p.2) with
  | none =>
    exact absurd hmatch (by simpa using List.find?_eq_none.mp hfind (n, t) hmem)
  | some q =>
    refine ⟨q, List.mem_of_find?_eq_some hfind,
      by simpa using List.find?_some hfind, ?_⟩
    cases s with
    | mk r ty pr rq it en fm pt =>
      simp only [Schema.type] at hty
      simp only [Schema.properties] at hps
      simp only [Schema.ref] at href
      subst hty hps
      have harr : ((some "object" : Option String) == some "array") = false := by
        decide
      simp only [processProperty, Schema.type, Schema.properties, Schema.ref,
        href, Option.isSome_some, Bool.not_false, Bool.and_true, beq_self_eq_true,
        Bool.true_and, if_true, findMatchingExistingDto, hfind, Option.map_some,
        harr, Bool.false_eq_true, if_false]
      rfl

/-- Witness for C6: the inline object `\x7b name, id \x7d` (listed in the
other order, with different property types) reuses the document schema
`User` with properties `\x7b id, name \x7d`, emitting type `"UserDto"`. -/
theorem processProperty_reuses_matching_dto_witness :
    ∃ q ∈ (Spec.mk [("User", fixObj [("id", fixTyped (some "string")),
          ("name", fixTyped (some "string"))] ["id"])] none).schemas,
      schemasMatch (fixObj [("name", fixTyped (some "string")),
          ("id", fixTyped (some "number"))] []) q.2 = true ∧
      (processProperty
        (Spec.mk [("User", fixObj [("id", fixTyped (some "string")),
          ("name", fixTyped (some "string"))] ["id"])] none)
        "profile"
        (fixObj [("name", fixTyped (some "string")),
          ("id", fixTyped (some "number"))] [])
        true [] (some "AccountDto")).1.type = q.1 ++ "Dto" :=
  processProperty_reuses_matching_dto
    (Spec.mk [("User", fixObj [("id", fixTyped (some "string")),
      ("name", fixTyped (some "string"))] ["id"])] none)
    "profile"
    (fixObj [("name", fixTyped (some "string")),
      ("id", fixTyped (some "number"))] [])
    true [] (some "AccountDto")
    [("name", fixTyped (some "string")), ("id", fixTyped (some "number"))]
    rfl rfl rfl
    "User" (fixObj [("id", fixTyped (some "string")),
      ("name", fixTyped (some "string"))] ["id"])
    [("id", fixTyped (some "string")), ("name", fixTyped (some "string"))]
    (List.Mem.head _) rfl
    (by decide) (by decide)
    (by intro x
        simp only [List.map_cons, List.map_nil, List.mem_cons,
          List.not_mem_nil, or_false]
        exact or_comm)

end NestGen

namespace NestGen

/-- Does a property schema trip the enum-emission test of the collector:
an `enum` field present and declared type exactly `"string"`. -/
def propEnumHit (prop : Schema) : Bool :=
  match prop.enumVals, prop.type with
  | some _, some "string" => true
  | _, _ => false

mutual

/-- Guard-following reachability of an enum property named `p`: the
traversal of `collectEnumsForTemplate` can reach a property named `p`
with an enum and type string, descending only into object-typed
properties carrying `properties` and into array items that are
object-typed and carry `properties` (the recursion guards of the
source). -/
def enumReach : Schema → String → Bool
  | .mk _ _ none _ _ _ _ _, _ => false
  | .mk _ _ (some ps) _ _ _ _ _, p => enumReachList ps p

/-- The array-items arm of `enumReach`. -/
def enumReachItems : Schema → String → Bool
  | .mk _ _ _ _ (some it) _ _ _, p =>
    if it.type == some "object" && it.properties.isSome then enumReach it p
    else false
  | _, _ => false

/-- Loop body of `enumReach` over the property list. -/
def enumReachList : List (String × Schema) → String → Bool
  | [], _ => false
  | (propName, prop) :: rest, p =>
    ((propName == p) && propEnumHit prop)
    || (if prop.type == some "object" && prop.properties.isSome then
          enumReach prop p
        else false)
    || (if prop.type == some "array" then enumReachItems prop p else false)
    || enumReachList rest p

end

/-- One step of the collector loop body, isolated for reasoning. -/
def enumStep (spec : Spec) (propName : String) (prop : Schema)
    (acc : List EnumDef) : List EnumDef :=
  let acc1 :=
    match prop.enumVals, prop.type with
    | some evs, some "string" =>
      pushEnumIfNew acc
        { name := getEnumName propName evs,
          values := evs.map (fun v => (jsEnumKey v, v)) }
    | _, _ => acc
  let acc2 :=
    if prop.type == some "object" && prop.properties.isSome then
      (collectEnumsForTemplate spec prop).foldl pushEnumIfNew acc1
    else acc1
  if prop.type == some "array" then collectEnumsItems spec prop acc2
  else acc2

/-- Unfolding the collector loop one property at a time. -/
theorem collectEnumsList_cons (spec : Spec) (pn : String) (pr : Schema)
    (rest : List (String × Schema)) (acc : List EnumDef) :
    collectEnumsList spec ((pn, pr) :: rest) acc
      = collectEnumsList spec rest (enumStep spec pn pr acc) := rfl

/-- Unfolding the reachability loop one property at a time. -/
theorem enumReachList_cons (pn : String) (pr : Schema)
    (rest : List (String × Schema)) (p : String) :
    enumReachList ((pn, pr) :: rest) p =
      (((pn == p) && propEnumHit pr)
      || (if pr.type == some "object" && pr.properties.isSome then
            enumReach pr p
          else false)
      || (if pr.type == some "array" then enumReachItems pr p else false)
      || enumReachList rest p) := rfl

/-- Constructor-level unfoldings of the mutual definitions, provable by
reflexivity and used as rewrite rules (the equation lemmas that Lean
generates for this mutual nest are not usable directly). -/
theorem collectEnumsForTemplate_none (spec : Spec) (r ty : Option String)
    (rq : List String) (its : Option Schema) (en : Option (List String))
    (fm pt : Option String) :
    collectEnumsForTemplate spec (.mk r ty none rq its en fm pt) = [] := rfl

theorem collectEnumsForTemplate_some (spec : Spec) (r ty : Option String)
    (ps : List (String × Schema)) (rq : List String) (its : Option Schema)
    (en : Option (List String)) (fm pt : Option String) :
    collectEnumsForTemplate spec (.mk r ty (some ps) rq its en fm pt)
      = collectEnumsList spec ps [] := rfl

theorem collectEnumsItems_some (spec : Spec) (r ty : Option String)
    (p0 : Option (List (String × Schema))) (rq : List String) (it : Schema)
    (en : Option (List String)) (fm pt : Option String) (acc : List EnumDef) :
    collectEnumsItems spec (.mk r ty p0 rq (some it) en fm pt) acc
      = (if it.type == some "object" && it.properties.isSome then
          (collectEnumsForTemplate spec it).foldl pushEnumIfNew acc
        else acc) := rfl

theorem collectEnumsItems_none (spec : Spec) (r ty : Option String)
    (p0 : Option (List (String × Schema))) (rq : List String)
    (en : Option (List String)) (fm pt : Option String) (acc : List EnumDef) :
    collectEnumsItems spec (.mk r ty p0 rq none en fm pt) acc = acc := rfl

theorem enumReach_noprops (r ty : Option String) (rq : List String)
    (its : Option Schema) (en : Option (List String)) (fm pt : Option String)
    (p : String) :
    enumReach (.mk r ty none rq its en fm pt) p = false := rfl

theorem enumReach_props (r ty : Option String)
    (ps : List (String × Schema)) (rq : List String) (its : Option Schema)
    (en : Option (List String)) (fm pt : Option String) (p : String) :
    enumReach (.mk r ty (some ps) rq its en fm pt) p = enumReachList ps p :=
  rfl

theorem enumReachItems_some (r ty : Option String)
    (p0 : Option (List (String × Schema))) (rq : List String) (it : Schema)
    (en : Option (List String)) (fm pt : Option String) (p : String) :
    enumReachItems (.mk r ty p0 rq (some it) en fm pt) p
      = (if it.type == some "object" && it.properties.isSome then
          enumReach it p
        else false) := rfl

theorem enumReachItems_none (r ty : Option String)
    (p0 : Option (List (String × Schema))) (rq : List String)
    (en : Option (List String)) (fm pt : Option String) (p : String) :
    enumReachItems (.mk r ty p0 rq none en fm pt) p = false := rfl

/-- Membership in the names after a conditional push: the new name is
visible exactly when pushed or already present. -/
theorem pushEnumIfNew_names_mem (acc : List EnumDef) (e : EnumDef)
    (nm : String) :
    nm ∈ (pushEnumIfNew acc e).map EnumDef.name ↔
      nm ∈ acc.map EnumDef.name ∨ nm = e.name := by
  unfold pushEnumIfNew
  by_cases h : acc.any (fun x => x.name == e.name) = true
  · rw [if_pos h]
    rcases List.any_eq_true.mp h with ⟨x, hx, hxe⟩
    constructor
    · exact Or.inl
    · rintro (h1 | rfl)
      · exact h1
      · exact List.mem_map.mpr ⟨x, hx, beq_iff_eq.mp hxe⟩
  · rw [if_neg h]
    simp [List.mem_map]

/-- A conditional push preserves duplicate-freedom of the name list. -/
theorem pushEnumIfNew_names_nodup (acc : List EnumDef) (e : EnumDef)
    (h : (acc.map EnumDef.name).Nodup) :
    ((pushEnumIfNew acc e).map EnumDef.name).Nodup := by
  unfold pushEnumIfNew
  by_cases hany : acc.any (fun x => x.name == e.name) = true
  · rw [if_pos hany]; exact h
  · rw [if_neg hany]
    rw [List.map_append]
    refine List.Nodup.append h (List.nodup_singleton _) ?_
    intro a ha hb
    rcases List.mem_singleton.mp hb with rfl
    rcases List.mem_map.mp ha with ⟨x, hx, hxn⟩
    exact hany (List.any_eq_true.mpr ⟨x, hx, beq_iff_eq.mpr hxn⟩)

/-- Merging a whole descriptor list with conditional pushes: a name is
present afterwards exactly when present before or carried by the merged
list. -/
theorem foldl_pushEnumIfNew_names_mem (nm : String) :
    ∀ (l : List EnumDef) (acc : List EnumDef),
      nm ∈ (l.foldl pushEnumIfNew acc).map EnumDef.name ↔
        nm ∈ acc.map EnumDef.name ∨ nm ∈ l.map EnumDef.name := by
  intro l
  induction l with
  | nil => intro acc; simp
  | cons e l ih =>
    intro acc
    rw [List.foldl_cons, ih, pushEnumIfNew_names_mem]
    simp only [List.map_cons, List.mem_cons]
    tauto

/-- Merging with conditional pushes preserves duplicate-freedom. -/
theorem foldl_pushEnumIfNew_names_nodup :
    ∀ (l : List EnumDef) (acc : List EnumDef),
      (acc.map EnumDef.name).Nodup →
      ((l.foldl pushEnumIfNew acc).map EnumDef.name).Nodup := by
  intro l
  induction l with
  | nil => intro acc h; exact h
  | cons e l ih => intro acc h; exact ih _ (pushEnumIfNew_names_nodup acc e h)

/-- Descending through `schema.properties` shrinks the node. -/
theorem sizeOf_lt_of_props {s : Schema} {ps : List (String × Schema)}
    (h : s.properties = some ps) : sizeOf ps < sizeOf s := by
  cases s with
  | mk r t p rq i e f pt =>
    simp only [Schema.properties] at h
    subst h
    simp
    omega

/-- The property schema of a head entry is smaller than the entry list. -/
theorem sizeOf_prop_lt {propName : String} {prop : Schema}
    {rest : List (String × Schema)} :
    sizeOf prop < sizeOf ((propName, prop) :: rest) := by
  simp
  omega

/-- The tail is smaller than the whole entry list. -/
theorem sizeOf_rest_lt {x : String × Schema}
    {rest : List (String × Schema)} :
    sizeOf rest < sizeOf (x :: rest) := by
  simp

/-- The names visible after one collector step: the old names plus the
head property's reachable enum names (the three disjuncts mirror the
three sources of the step: the property's own enum, a nested object, an
object-typed array item). -/
theorem enumStep_names_mem (spec : Spec) (pn : String) (pr : Schema)
    (acc : List EnumDef) (nm : String)
    (hobj : ∀ x, x ∈ (collectEnumsForTemplate spec pr).map EnumDef.name ↔
      ∃ p, enumReach pr p = true ∧ x = capitalizeJs p ++ "Enum")
    (hitems : ∀ it, pr.items = some it →
      ∀ x, x ∈ (collectEnumsForTemplate spec it).map EnumDef.name ↔
        ∃ p, enumReach it p = true ∧ x = capitalizeJs p ++ "Enum") :
    nm ∈ (enumStep spec pn pr acc).map EnumDef.name ↔
      nm ∈ acc.map EnumDef.name ∨
      ∃ p, ((((pn == p) && propEnumHit pr)
        || (if pr.type == some "object" && pr.properties.isSome then
              enumReach pr p
            else false)
        || (if pr.type == some "array" then enumReachItems pr p else false))
          = true) ∧ nm = capitalizeJs p ++ "Enum" := by
  obtain ⟨r, ty, props, rq, its, en, fm, pt⟩ := pr
  simp only [Schema.type, Schema.properties, Schema.items] at hitems ⊢
  rcases ty with _ | t
  · rcases en with _ | evs <;>
      simp [enumStep, propEnumHit, Schema.type, Schema.properties, Schema.enumVals, Schema.items,
        -List.mem_map]
  · by_cases ht1 : t = "string"
    · subst ht1
      rcases en with _ | evs
      · simp [enumStep, propEnumHit, Schema.type, Schema.properties, Schema.enumVals, Schema.items,
          -List.mem_map]
      · simp [enumStep, propEnumHit, Schema.type, Schema.properties, Schema.enumVals, Schema.items,
          pushEnumIfNew_names_mem, getEnumName, beq_iff_eq, -List.mem_map]
    · by_cases ht2 : t = "object"
      · subst ht2
        rcases props with _ | ps
        · rcases en with _ | evs <;>
            simp [enumStep, propEnumHit, Schema.type, Schema.properties, Schema.enumVals, Schema.items,
              -List.mem_map]
        · rcases en with _ | evs <;>
            simp [enumStep, propEnumHit, Schema.type, Schema.properties, Schema.enumVals, Schema.items,
              foldl_pushEnumIfNew_names_mem, hobj, enumReach_props,
              -List.mem_map]
      · by_cases ht3 : t = "array"
        · subst ht3
          rcases its with _ | it
          · rcases en with _ | evs <;>
              simp [enumStep, propEnumHit, Schema.type, Schema.properties, Schema.enumVals, Schema.items,
                collectEnumsItems_none, enumReachItems_none, -List.mem_map]
          · have hit := hitems it rfl
            by_cases hg :
                (it.type == some "object" && it.properties.isSome) = true
            · simp only [Schema.type, Schema.properties, Bool.and_eq_true,
                beq_iff_eq] at hg
              rcases en with _ | evs <;>
                simp [enumStep, propEnumHit, Schema.type, Schema.properties,
                  Schema.enumVals, Schema.items, collectEnumsItems_some,
                  enumReachItems_some, hg.1, hg.2,
                  foldl_pushEnumIfNew_names_mem, hit, -List.mem_map]
            · simp only [Schema.type, Schema.properties, Bool.and_eq_true,
                beq_iff_eq] at hg
              rcases en with _ | evs <;>
                simp [enumStep, propEnumHit, Schema.type, Schema.properties,
                  Schema.enumVals, Schema.items, collectEnumsItems_some,
                  enumReachItems_some, hg, -List.mem_map]
        · rcases en with _ | evs <;>
            simp only [enumStep, propEnumHit, Schema.type, Schema.properties, Schema.enumVals, Schema.items,
              beq_iff_eq, ht2, ht3, Option.some.injEq, Bool.and_eq_true,
              decide_eq_true_eq] <;>
            simp [ht1, ht2, ht3, -List.mem_map]

/-- The nil unfolding of the collector loop. -/
theorem collectEnumsList_nil (spec : Spec) (acc : List EnumDef) :
    collectEnumsList spec [] acc = acc := rfl

/-- The nil unfolding of the reachability loop. -/
theorem enumReachList_nil (p : String) : enumReachList [] p = false := rfl

/-- The array-items merge preserves duplicate-freedom of the names. -/
theorem collectEnumsItems_names_nodup (spec : Spec) (pr : Schema)
    (acc : List EnumDef) (h : (acc.map EnumDef.name).Nodup) :
    ((collectEnumsItems spec pr acc).map EnumDef.name).Nodup := by
  obtain ⟨r, ty, props, rq, its, en, fm, pt⟩ := pr
  rcases its with _ | it
  · rw [collectEnumsItems_none]; exact h
  · rw [collectEnumsItems_some]
    by_cases hg : (it.type == some "object" && it.properties.isSome) = true
    · rw [if_pos hg]; exact foldl_pushEnumIfNew_names_nodup _ _ h
    · rw [if_neg hg]; exact h

/-- One collector step preserves duplicate-freedom of the names. -/
theorem enumStep_names_nodup (spec : Spec) (pn : String) (pr : Schema)
    (acc : List EnumDef) (h : (acc.map EnumDef.name).Nodup) :
    ((enumStep spec pn pr acc).map EnumDef.name).Nodup := by
  simp only [enumStep]
  split
  · apply collectEnumsItems_names_nodup
    split
    · apply foldl_pushEnumIfNew_names_nodup
      split
      · exact pushEnumIfNew_names_nodup _ _ h
      · exact h
    · split
      · exact pushEnumIfNew_names_nodup _ _ h
      · exact h
  · split
    · apply foldl_pushEnumIfNew_names_nodup
      split
      · exact pushEnumIfNew_names_nodup _ _ h
      · exact h
    · split
      · exact pushEnumIfNew_names_nodup _ _ h
      · exact h

/-- Lift a loop-level characterization through `collectEnumsForTemplate`. -/
theorem collectTemplate_names_of_ih (spec : Spec) (s : Schema)
    (hih : ∀ ps, s.properties = some ps → ∀ x,
      x ∈ (collectEnumsList spec ps []).map EnumDef.name ↔
        ∃ p, enumReachList ps p = true ∧ x = capitalizeJs p ++ "Enum") :
    ∀ x, x ∈ (collectEnumsForTemplate spec s).map EnumDef.name ↔
      ∃ p, enumReach s p = true ∧ x = capitalizeJs p ++ "Enum" := by
  obtain ⟨r, ty, props, rq, its, en, fm, pt⟩ := s
  rcases props with _ | ps0
  · intro x
    simp [collectEnumsForTemplate_none, enumReach_noprops]
  · intro x
    rw [collectEnumsForTemplate_some, hih ps0 rfl x]
    simp only [enumReach_props]

/-- Distribute an existential over a boolean disjunction of tests. -/
theorem exists_head_or_rest {b r : String → Bool} {C : String → Prop} :
    ((∃ p, b p = true ∧ C p) ∨ (∃ p, r p = true ∧ C p)) ↔
      ∃ p, (b p || r p) = true ∧ C p := by
  constructor
  · rintro (⟨p, hb, hc⟩ | ⟨p, hr, hc⟩)
    · exact ⟨p, by simp [hb], hc⟩
    · exact ⟨p, by simp [hr], hc⟩
  · rintro ⟨p, hbr, hc⟩
    rcases (by simpa using hbr : b p = true ∨ r p = true) with h | h
    · exact Or.inl ⟨p, h, hc⟩
    · exact Or.inr ⟨p, h, hc⟩

/-- The collector loop, on any accumulator: it preserves duplicate-free
names, and a name is collected exactly when it was already present or
belongs to a guard-reachable string-typed enum property of the list. -/
theorem collectEnumsList_names (spec : Spec) :
    ∀ n : Nat, ∀ ps : List (String × Schema), sizeOf ps < n →
    ∀ acc : List EnumDef,
      ((acc.map EnumDef.name).Nodup →
        ((collectEnumsList spec ps acc).map EnumDef.name).Nodup) ∧
      (∀ nm, nm ∈ (collectEnumsList spec ps acc).map EnumDef.name ↔
        nm ∈ acc.map EnumDef.name ∨
        ∃ p, enumReachList ps p = true ∧ nm = capitalizeJs p ++ "Enum") := by
  intro n
  induction n with
  | zero => intro ps h; exact absurd h (Nat.not_lt_zero _)
  | succ n ih =>
    intro ps hsz acc
    cases ps with
    | nil =>
      refine ⟨fun h => h, ?_⟩
      intro nm
      simp [collectEnumsList_nil, enumReachList_nil]
    | cons hd rest =>
      obtain ⟨pn, pr⟩ := hd
      have hsz' : sizeOf ((pn, pr) :: rest) ≤ n := Nat.lt_succ_iff.mp hsz
      have hrestsz : sizeOf rest < n :=
        lt_of_lt_of_le sizeOf_rest_lt hsz'
      have hprop : sizeOf pr < n :=
        lt_of_lt_of_le sizeOf_prop_lt hsz'
      have hobj := collectTemplate_names_of_ih spec pr (fun ps0 hps0 x => by
        have hsz0 : sizeOf ps0 < n :=
          lt_trans (sizeOf_lt_of_props hps0) hprop
        simpa using (ih ps0 hsz0 []).2 x)
      have hit : ∀ it, pr.items = some it →
          ∀ x, x ∈ (collectEnumsForTemplate spec it).map EnumDef.name ↔
            ∃ p, enumReach it p = true ∧ x = capitalizeJs p ++ "Enum" :=
        fun it h => collectTemplate_names_of_ih spec it (fun ps2 hps2 x => by
          have hsz2 : sizeOf ps2 < n :=
            lt_trans (sizeOf_lt_of_props hps2)
              (lt_trans (sizeOf_lt_of_items h) hprop)
          simpa using (ih ps2 hsz2 []).2 x)
      rw [collectEnumsList_cons]
      have hrest := ih rest hrestsz (enumStep spec pn pr acc)
      constructor
      · intro hnd
        exact hrest.1 (enumStep_names_nodup spec pn pr acc hnd)
      · intro nm
        rw [hrest.2 nm, enumStep_names_mem spec pn pr acc nm hobj hit,
          or_assoc]
        refine or_congr Iff.rfl ?_
        rw [exists_head_or_rest]
        simp only [enumReachList_cons, Bool.or_assoc]

mutual

/-- The spec words, "anywhere in the tree": a property named `p` with
type string and a NON-EMPTY enum list somewhere in the subtree, with
unrestricted descent through every property schema and every array item
(no recursion guards). -/
def enumAnywhere : Schema → String → Bool
  | .mk _ _ props _ (some it) _ _ _, p =>
    (match props with
     | none => false
     | some ps => enumAnywhereList ps p) || enumAnywhere it p
  | .mk _ _ props _ none _ _ _, p =>
    match props with
    | none => false
    | some ps => enumAnywhereList ps p

/-- Loop body of `enumAnywhere` over a property list. -/
def enumAnywhereList : List (String × Schema) → String → Bool
  | [], _ => false
  | (propName, prop) :: rest, p =>
    ((propName == p) && (prop.type == some "string") &&
      (match prop.enumVals with
       | some (_ :: _) => true
       | _ => false))
    || enumAnywhere prop p || enumAnywhereList rest p

end

/-- Names of the collected enums, at the template level: duplicate-free,
and present exactly for the guard-reachable string-typed enum
properties. -/
theorem collectEnumsForTemplate_names (spec : Spec) (s : Schema) :
    ((collectEnumsForTemplate spec s).map EnumDef.name).Nodup ∧
    (∀ nm, nm ∈ (collectEnumsForTemplate spec s).map EnumDef.name ↔
      ∃ p, enumReach s p = true ∧ nm = capitalizeJs p ++ "Enum") := by
  constructor
  · obtain ⟨r, ty, props, rq, its, en, fm, pt⟩ := s
    rcases props with _ | ps
    · rw [collectEnumsForTemplate_none]
      simp
    · rw [collectEnumsForTemplate_some]
      exact (collectEnumsList_names spec (sizeOf ps + 1) ps
        (Nat.lt_succ_self _) []).1 (by simp)
  · exact collectTemplate_names_of_ih spec s (fun ps hps x => by
      simpa using (collectEnumsList_names spec (sizeOf ps + 1) ps
        (Nat.lt_succ_self _) []).2 x)

/-! ### C7: one enum descriptor per distinct reachable property name -/

/-- C7 counterexample.  In the schema
`{ a: array of array of { status: string enum [x] } }` the property
`status` carries type string and a non-empty enum list in the tree
(`enumAnywhere` holds), yet enum collection emits no descriptor at all:
the traversal descends into array items only when the item is itself an
object with properties, so an enum nested under two array layers is
missed, refuting the claim's "anywhere in the tree". -/
theorem collectEnums_anywhere_counterexample :
    enumAnywhere
      (fixObj [("a", fixArr (fixArr
        (fixObj [("status", fixStrEnum ["x"])] [])))] []) "status" = true ∧
    collectEnumsForTemplate (Spec.mk [] none)
      (fixObj [("a", fixArr (fixArr
        (fixObj [("status", fixStrEnum ["x"])] [])))] []) = [] := by
  constructor
  · decide
  · decide

/-- C7 amended.  For each distinct property name `p` that the collector
traversal reaches (descending only into object-typed properties with
`properties` and into object-typed array items with `properties`) with an
enum field and type string, the collection holds exactly one descriptor
named `capitalize(p) ++ "Enum"`; names appear for exactly those
properties; and the spec's collapse example — two properties named
`status` with different literal sets — yields the single `StatusEnum`
descriptor first encountered. -/
theorem collectEnums_one_per_reachable (spec : Spec) (s : Schema) :
    (∀ p, enumReach s p = true →
      ((collectEnumsForTemplate spec s).map EnumDef.name).count
        (capitalizeJs p ++ "Enum") = 1) ∧
    (∀ nm, nm ∈ (collectEnumsForTemplate spec s).map EnumDef.name ↔
      ∃ p, enumReach s p = true ∧ nm = capitalizeJs p ++ "Enum") ∧
    collectEnumsForTemplate (Spec.mk [] none)
      (fixObj [("order", fixObj [("status", fixStrEnum ["a", "b"])] []),
               ("status", fixStrEnum ["x"])] [])
      = [⟨"StatusEnum", [("A", "a"), ("B", "b")]⟩] := by
  obtain ⟨hnd, hmem⟩ := collectEnumsForTemplate_names spec s
  refine ⟨?_, hmem, by decide⟩
  intro p hp
  exact List.count_eq_one_of_mem hnd ((hmem _).mpr ⟨p, hp, rfl⟩)

end NestGen

namespace NestGen

/-! ### C5: the model dependency orderer -/

/-- Dependency reachability: `Reaches deps x y` when `y` can be reached
from `x` by following `dependsOn` edges (each step goes from a node to
one of its recorded dependencies). -/
def Reaches (deps : List (String × List String)) (x y : String) : Prop :=
  Relation.ReflTransGen (fun u v => v ∈ depsOf deps u) x y

/-- Work remaining in a traversal state: each key not yet visited and not
on the visiting stack still costs its dependency-list length plus two
fuel units. -/
def topoPot (deps : List (String × List String)) (st : TopoState) : Nat :=
  (((deps.map Prod.fst).filter
      (fun k => !st.visited.contains k && !st.visiting.contains k)).map
    (fun k => (depsOf deps k).length + 2)).sum

/-- The state invariant of the traversal: the output is duplicate-free,
`visited` matches the output, the visiting stack is disjoint from the
output, and the output holds keys only. -/
def TopoInv (deps : List (String × List String)) (st : TopoState) : Prop :=
  st.result.Nodup ∧ (∀ x, x ∈ st.visited ↔ x ∈ st.result) ∧
  (∀ x ∈ st.visiting, x ∉ st.result) ∧
  (∀ x ∈ st.result, hasDepKey deps x = true)

/-- The ordering invariant: every key dependency of an output node either
appears earlier in the output or reaches the node (a cyclic edge). -/
def TopoOrder (deps : List (String × List String)) (st : TopoState) : Prop :=
  ∀ a b, a ∈ st.result → b ∈ depsOf deps a → hasDepKey deps b = true →
    st.result.indexOf b < st.result.indexOf a ∨ Reaches deps b a

/-- What one traversal call guarantees about its output state, relative
to its input state. -/
def TopoPost (deps : List (String × List String)) (st res : TopoState) :
    Prop :=
  TopoInv deps res ∧ TopoOrder deps res ∧ res.visiting = st.visiting ∧
  (∃ new, res.result = st.result ++ new) ∧
  (∀ x, x ∈ res.result →
    x ∈ st.result ∨ (hasDepKey deps x = true ∧ x ∉ st.visiting)) ∧
  (∀ x, x ∈ st.visited → x ∈ res.visited) ∧
  topoPot deps res ≤ topoPot deps st

/-- One-step unfolding of `topoVisit` at positive fuel. -/
theorem topoVisit_succ (deps : List (String × List String)) (fuel : Nat)
    (n : String) (st : TopoState) :
    topoVisit deps (fuel + 1) n st =
      if st.visiting.contains n then st
      else if st.visited.contains n then st
      else
        let st1 : TopoState := ⟨n :: st.visiting, st.visited, st.result⟩
        let st2 := topoVisitList deps fuel (depsOf deps n) st1
        ⟨st2.visiting.erase n, n :: st2.visited, st2.result ++ [n]⟩ := rfl

/-- Nil unfolding of `topoVisitList` at positive fuel. -/
theorem topoVisitList_succ_nil (deps : List (String × List String))
    (fuel : Nat) (st : TopoState) :
    topoVisitList deps (fuel + 1) [] st = st := rfl

/-- Cons unfolding of `topoVisitList` at positive fuel. -/
theorem topoVisitList_succ_cons (deps : List (String × List String))
    (fuel : Nat) (d : String) (ds : List String) (st : TopoState) :
    topoVisitList deps (fuel + 1) (d :: ds) st =
      topoVisitList deps fuel ds
        (if hasDepKey deps d then topoVisit deps fuel d st else st) := rfl

/-- Sums of mapped filters are monotone in the filter predicate. -/
theorem sum_filter_le (l : List String) (f : String → Nat)
    (p q : String → Bool) (h : ∀ x ∈ l, p x = true → q x = true) :
    ((l.filter p).map f).sum ≤ ((l.filter q).map f).sum := by
  induction l with
  | nil => simp
  | cons x l ih =>
    have ih' := ih (fun y hy hp => h y (by simp [hy]) hp)
    by_cases hp : p x = true
    · rw [List.filter_cons, if_pos hp, List.filter_cons,
        if_pos (h x (by simp) hp)]
      simp only [List.map_cons, List.sum_cons]
      omega
    · rw [List.filter_cons, if_neg (by simpa using hp)]
      by_cases hq : q x = true
      · rw [List.filter_cons, if_pos hq]
        simp only [List.map_cons, List.sum_cons]
        omega
      · rw [List.filter_cons, if_neg (by simpa using hq)]
        exact ih'

/-- Strengthening a filter so that it also drops one present element `n`
loses at least `f n` from the sum. -/
theorem sum_filter_sub_le (l : List String) (f : String → Nat)
    (q q' : String → Bool) (n : String)
    (hn : n ∈ l) (hq : q n = true)
    (hq' : ∀ x, q' x = true → q x = true ∧ x ≠ n) :
    f n + ((l.filter q').map f).sum ≤ ((l.filter q).map f).sum := by
  induction l with
  | nil => cases hn
  | cons x l ih =>
    rcases List.mem_cons.mp hn with rfl | hx
    · simp only [List.filter_cons]
      rw [if_neg (fun h => (hq' n h).2 rfl), if_pos hq]
      simp only [List.map_cons, List.sum_cons]
      have := sum_filter_le l f q' q (fun y _ hy => (hq' y hy).1)
      omega
    · have ih' := ih hx
      simp only [List.filter_cons]
      by_cases hqx : q x = true
      · rw [if_pos hqx]
        by_cases hq'x : q' x = true
        · rw [if_pos hq'x]
          simp only [List.map_cons, List.sum_cons]
          omega
        · rw [if_neg hq'x]
          simp only [List.map_cons, List.sum_cons]
          omega
      · rw [if_neg (fun h => hqx (hq' x h).1), if_neg hqx]
        exact ih'

/-- The remaining work shrinks (weakly) whenever `visited` and `visiting`
only grow. -/
theorem topoPot_le_of (deps : List (String × List String))
    (st st' : TopoState)
    (hvd : ∀ x, x ∈ st.visited → x ∈ st'.visited)
    (hvg : ∀ x, x ∈ st.visiting → x ∈ st'.visiting) :
    topoPot deps st' ≤ topoPot deps st := by
  unfold topoPot
  apply sum_filter_le
  intro x _ hp
  simp only [Bool.and_eq_true, Bool.not_eq_true'] at hp ⊢
  obtain ⟨h1, h2⟩ := hp
  have h1p := (contains_false_iff _ _).mp h1
  have h2p := (contains_false_iff _ _).mp h2
  exact ⟨(contains_false_iff _ _).mpr (fun hmem => h1p (hvd x hmem)),
    (contains_false_iff _ _).mpr (fun hmem => h2p (hvg x hmem))⟩

/-- Pushing an unvisited key onto the visiting stack frees its full fuel
cost from the remaining work. -/
theorem topoPot_push_le (deps : List (String × List String))
    (st : TopoState) (n : String)
    (hkey : hasDepKey deps n = true)
    (hnv : st.visited.contains n = false)
    (hng : st.visiting.contains n = false) :
    topoPot deps ⟨n :: st.visiting, st.visited, st.result⟩
      + ((depsOf deps n).length + 2) ≤ topoPot deps st := by
  unfold topoPot
  dsimp only
  have hn : n ∈ deps.map Prod.fst :=
    lookup_isSome_mem_keys _ _ hkey
  have h := sum_filter_sub_le (deps.map Prod.fst)
    (fun k => (depsOf deps k).length + 2)
    (fun k => !st.visited.contains k && !st.visiting.contains k)
    (fun k => !st.visited.contains k && !(n :: st.visiting).contains k)
    n hn (by
      simp only [Bool.and_eq_true, Bool.not_eq_true']
      exact ⟨hnv, hng⟩)
    (by
      intro x hx
      simp only [Bool.and_eq_true, Bool.not_eq_true', List.contains_cons,
        Bool.or_eq_false_iff] at hx
      constructor
      · simp only [Bool.and_eq_true, Bool.not_eq_true']
        exact ⟨hx.1, hx.2.2⟩
      · intro hxn
        subst hxn
        simpa using hx.2.1)
  dsimp only at h ⊢
  omega

/-- A membership-based converse of `lookup_isSome_mem_keys`. -/
theorem mem_keys_lookup_isSome {β : Type} (l : List (String × β)) (a : String)
    (h : a ∈ l.map Prod.fst) : (List.lookup a l).isSome = true := by
  induction l with
  | nil => simp at h
  | cons x xs ih =>
    obtain ⟨k, v⟩ := x
    by_cases hk : a = k
    · subst hk
      simp [List.lookup]
    · have hne : (a == k) = false := by simpa using hk
      simp only [List.lookup, hne]
      apply ih
      simpa [hk] using h

/-- Appending one fresh element keeps a list duplicate-free. -/
theorem nodup_append_singleton (l : List String) (a : String)
    (h : l.Nodup) (ha : a ∉ l) : (l ++ [a]).Nodup := by
  refine List.Nodup.append h (List.nodup_singleton _) ?_
  intro x hx hx2
  rcases List.mem_singleton.mp hx2 with rfl
  exact ha hx

/-- The index of a freshly appended element is the old length. -/
theorem indexOf_append_self (l : List String) (a : String) (h : a ∉ l) :
    (l ++ [a]).indexOf a = l.length := by
  induction l with
  | nil => simp
  | cons x l ih =>
    have hax : x ≠ a := fun he => h (he ▸ List.mem_cons_self x l)
    simp only [List.cons_append, List.indexOf_cons_ne _ hax,
      List.length_cons]
    rw [ih (fun hm => h (List.mem_cons_of_mem x hm))]

/-- `TopoPost` holds reflexively on an invariant state. -/
theorem TopoPost_refl (deps : List (String × List String)) (st : TopoState)
    (h : TopoInv deps st) (ho : TopoOrder deps st) : TopoPost deps st st :=
  ⟨h, ho, rfl, ⟨[], by simp⟩, fun _ hx => Or.inl hx, fun _ hx => hx,
    le_refl _⟩

/-- `TopoPost` composes along successive states. -/
theorem TopoPost_trans (deps : List (String × List String))
    (st st' res : TopoState) (h1 : TopoPost deps st st')
    (h2 : TopoPost deps st' res) : TopoPost deps st res := by
  obtain ⟨i1, o1, v1, ⟨n1, r1⟩, c1, m1, p1⟩ := h1
  obtain ⟨i2, o2, v2, ⟨n2, r2⟩, c2, m2, p2⟩ := h2
  refine ⟨i2, o2, v2.trans v1,
    ⟨n1 ++ n2, by rw [r2, r1, List.append_assoc]⟩, ?_,
    fun x hx => m2 x (m1 x hx), le_trans p2 p1⟩
  intro x hx
  rcases c2 x hx with hx2 | ⟨hk, hnv⟩
  · rcases c1 x hx2 with h | ⟨hk, hnv⟩
    · exact Or.inl h
    · exact Or.inr ⟨hk, hnv⟩
  · rw [v1] at hnv
    exact Or.inr ⟨hk, hnv⟩

/-- Soundness of the fuelled DFS: with adequate fuel, one visit (and one
dependency-loop pass) preserves the invariants, restores the visiting
stack, only appends fresh keys, completes the visited node, and computes
the same state under any adequate fuel. -/
theorem topoVisit_sound (deps : List (String × List String)) :
    ∀ fuel : Nat,
      (∀ n st, TopoInv deps st → TopoOrder deps st →
        hasDepKey deps n = true →
        (∀ v ∈ st.visiting, Reaches deps v n) →
        topoPot deps st + 1 ≤ fuel →
        TopoPost deps st (topoVisit deps fuel n st) ∧
        (n ∈ (topoVisit deps fuel n st).result ∨ n ∈ st.visiting) ∧
        (∀ f2, topoPot deps st + 1 ≤ f2 →
          topoVisit deps f2 n st = topoVisit deps fuel n st)) ∧
      (∀ ds st, TopoInv deps st → TopoOrder deps st →
        (∀ d ∈ ds, hasDepKey deps d = true →
          ∀ v ∈ st.visiting, Reaches deps v d) →
        topoPot deps st + ds.length + 1 ≤ fuel →
        TopoPost deps st (topoVisitList deps fuel ds st) ∧
        (∀ d ∈ ds, hasDepKey deps d = true →
          d ∈ (topoVisitList deps fuel ds st).result ∨ d ∈ st.visiting) ∧
        (∀ f2, topoPot deps st + ds.length + 1 ≤ f2 →
          topoVisitList deps f2 ds st = topoVisitList deps fuel ds st)) := by
  intro fuel
  induction fuel with
  | zero =>
    constructor
    · intro n st _ _ _ _ hf
      exact absurd hf (by omega)
    · intro ds st _ _ _ hf
      exact absurd hf (by omega)
  | succ fuel ih =>
    obtain ⟨ihV, ihL⟩ := ih
    constructor
    · intro n st hinv hord hkey hreach hf
      rw [topoVisit_succ]
      by_cases hv : st.visiting.contains n = true
      · rw [if_pos hv]
        refine ⟨TopoPost_refl deps st hinv hord,
          Or.inr ((contains_true_iff _ _).mp hv), ?_⟩
        intro f2 hf2
        obtain ⟨k, rfl⟩ : ∃ k, f2 = k + 1 := ⟨f2 - 1, by omega⟩
        rw [topoVisit_succ, if_pos hv]
      · rw [if_neg hv]
        by_cases hvd : st.visited.contains n = true
        · rw [if_pos hvd]
          have hmem : n ∈ st.result :=
            (hinv.2.1 n).mp ((contains_true_iff _ _).mp hvd)
          refine ⟨TopoPost_refl deps st hinv hord, Or.inl hmem, ?_⟩
          intro f2 hf2
          obtain ⟨k, rfl⟩ : ∃ k, f2 = k + 1 := ⟨f2 - 1, by omega⟩
          rw [topoVisit_succ, if_neg hv, if_pos hvd]
        · rw [if_neg hvd]
          dsimp only
          have hvf : st.visiting.contains n = false := by
            cases h : st.visiting.contains n
            · rfl
            · exact absurd h hv
          have hvdf : st.visited.contains n = false := by
            cases h : st.visited.contains n
            · rfl
            · exact absurd h hvd
          have hnv : n ∉ st.visiting := (contains_false_iff _ _).mp hvf
          have hnr : n ∉ st.result := fun hm =>
            (contains_false_iff _ _).mp hvdf ((hinv.2.1 n).mpr hm)
          have hinv1 : TopoInv deps
              ⟨n :: st.visiting, st.visited, st.result⟩ := by
            refine ⟨hinv.1, hinv.2.1, ?_, hinv.2.2.2⟩
            intro x hx
            rcases List.mem_cons.mp hx with rfl | hx2
            · exact hnr
            · exact hinv.2.2.1 x hx2
          have hord1 : TopoOrder deps
              ⟨n :: st.visiting, st.visited, st.result⟩ := hord
          have hreach1 : ∀ d ∈ depsOf deps n, hasDepKey deps d = true →
              ∀ v ∈ (⟨n :: st.visiting, st.visited, st.result⟩ :
                TopoState).visiting, Reaches deps v d := by
            intro d hd _ v hvmem
            rcases List.mem_cons.mp hvmem with rfl | hvm
            · exact Relation.ReflTransGen.single hd
            · exact (hreach v hvm).tail hd
          have hpush := topoPot_push_le deps st n hkey hvdf hvf
          have hpot1 : topoPot deps
              ⟨n :: st.visiting, st.visited, st.result⟩
              + (depsOf deps n).length + 1 ≤ fuel := by omega
          obtain ⟨postL, complL, irrelL⟩ :=
            ihL (depsOf deps n) ⟨n :: st.visiting, st.visited, st.result⟩
              hinv1 hord1 hreach1 hpot1
          obtain ⟨hinv2, hord2, hviseq2, ⟨new2, hres2⟩, hchar2, hvisd2,
            hpot2⟩ := postL
          have hn2 : n ∉ (topoVisitList deps fuel (depsOf deps n)
              ⟨n :: st.visiting, st.visited, st.result⟩).result := by
            intro hm
            rcases hchar2 n hm with h | ⟨_, hns⟩
            · exact hnr h
            · exact hns (List.mem_cons_self n _)
          have hvres : (topoVisitList deps fuel (depsOf deps n)
              ⟨n :: st.visiting, st.visited, st.result⟩).visiting.erase n
              = st.visiting := by
            rw [hviseq2]
            exact List.erase_cons_head n st.visiting
          refine ⟨⟨?_, ?_, ?_, ?_, ?_, ?_, ?_⟩, ?_, ?_⟩
          · -- TopoInv of the final state
            refine ⟨nodup_append_singleton _ _ hinv2.1 hn2, ?_, ?_, ?_⟩
            · intro x
              constructor
              · intro hx
                rcases List.mem_cons.mp hx with rfl | hx2
                · exact List.mem_append_right _ (List.mem_singleton.mpr rfl)
                · exact List.mem_append_left _ ((hinv2.2.1 x).mp hx2)
              · intro hx
                rcases List.mem_append.mp hx with hx2 | hx2
                · exact List.mem_cons_of_mem _ ((hinv2.2.1 x).mpr hx2)
                · rcases List.mem_singleton.mp hx2 with rfl
                  exact List.mem_cons_self _ _
            · intro x hx
              rw [hvres] at hx
              intro hx2
              rcases List.mem_append.mp hx2 with hx3 | hx3
              · exact hinv2.2.2.1 x (by
                  rw [hviseq2]
                  exact List.mem_cons_of_mem n hx) hx3
              · rcases List.mem_singleton.mp hx3 with rfl
                exact hnv hx
            · intro x hx
              rcases List.mem_append.mp hx with hx2 | hx2
              · exact hinv2.2.2.2 x hx2
              · rcases List.mem_singleton.mp hx2 with rfl
                exact hkey
          · -- TopoOrder of the final state
            intro a b ha hb hkb
            rcases List.mem_append.mp ha with ha2 | ha2
            · rcases hord2 a b ha2 hb hkb with hlt | hr
              · left
                have hamem : List.indexOf a (topoVisitList deps fuel
                    (depsOf deps n)
                    ⟨n :: st.visiting, st.visited, st.result⟩).result
                    < (topoVisitList deps fuel (depsOf deps n)
                    ⟨n :: st.visiting, st.visited, st.result⟩).result.length :=
                  List.indexOf_lt_length.mpr ha2
                have hbmem : b ∈ (topoVisitList deps fuel (depsOf deps n)
                    ⟨n :: st.visiting, st.visited, st.result⟩).result :=
                  List.indexOf_lt_length.mp (lt_trans hlt hamem)
                rw [List.indexOf_append_of_mem hbmem,
                  List.indexOf_append_of_mem ha2]
                exact hlt
              · exact Or.inr hr
            · rcases List.mem_singleton.mp ha2 with rfl
              rcases complL b hb hkb with hbm | hbv
              · left
                rw [List.indexOf_append_of_mem hbm,
                  indexOf_append_self _ _ hn2]
                exact List.indexOf_lt_length.mpr hbm
              · rcases List.mem_cons.mp hbv with rfl | hbv2
                · exact Or.inr Relation.ReflTransGen.refl
                · exact Or.inr (hreach b hbv2)
          · exact hvres
          · exact ⟨new2 ++ [n], by rw [hres2, List.append_assoc]⟩
          · intro x hx
            rcases List.mem_append.mp hx with hx2 | hx2
            · rcases hchar2 x hx2 with h | ⟨hk, hns⟩
              · exact Or.inl h
              · exact Or.inr ⟨hk, fun hm =>
                  hns (List.mem_cons_of_mem n hm)⟩
            · rcases List.mem_singleton.mp hx2 with rfl
              exact Or.inr ⟨hkey, hnv⟩
          · intro x hx
            exact List.mem_cons_of_mem _ (hvisd2 x hx)
          · -- potential shrinks
            apply topoPot_le_of
            · intro x hx
              exact List.mem_cons_of_mem _ (hvisd2 x hx)
            · intro x hx
              rw [hvres]
              exact hx
          · exact Or.inl (List.mem_append_right _
              (List.mem_singleton.mpr rfl))
          · intro f2 hf2
            obtain ⟨k, rfl⟩ : ∃ k, f2 = k + 1 := ⟨f2 - 1, by omega⟩
            rw [topoVisit_succ, if_neg hv, if_neg hvd]
            dsimp only
            have hk2 : topoPot deps
                ⟨n :: st.visiting, st.visited, st.result⟩
                + (depsOf deps n).length + 1 ≤ k := by omega
            rw [irrelL k hk2]
    · intro ds st hinv hord hreach hf
      cases ds with
      | nil =>
        rw [topoVisitList_succ_nil]
        refine ⟨TopoPost_refl deps st hinv hord, by simp, ?_⟩
        intro f2 hf2
        obtain ⟨k, rfl⟩ : ∃ k, f2 = k + 1 := ⟨f2 - 1, by omega⟩
        rw [topoVisitList_succ_nil]
      | cons d ds =>
        rw [topoVisitList_succ_cons]
        simp only [List.length_cons] at hf
        by_cases hkd : hasDepKey deps d = true
        · rw [if_pos hkd]
          have hfV : topoPot deps st + 1 ≤ fuel := by omega
          obtain ⟨postV, complV, irrelV⟩ := ihV d st hinv hord hkd
            (hreach d (List.mem_cons_self d ds) hkd) hfV
          obtain ⟨hinvV, hordV, hviseqV, ⟨newV, hresV⟩, hcharV, hvisdV,
            hpotV⟩ := postV
          have hfL : topoPot deps (topoVisit deps fuel d st)
              + ds.length + 1 ≤ fuel := by omega
          have hreachL : ∀ d2 ∈ ds, hasDepKey deps d2 = true →
              ∀ v ∈ (topoVisit deps fuel d st).visiting,
                Reaches deps v d2 := by
            intro d2 hd2 hk2 v hvm
            rw [hviseqV] at hvm
            exact hreach d2 (List.mem_cons_of_mem d hd2) hk2 v hvm
          obtain ⟨postL, complL, irrelL⟩ := ihL ds (topoVisit deps fuel d st)
            hinvV hordV hreachL hfL
          refine ⟨TopoPost_trans deps st (topoVisit deps fuel d st) _
            ⟨hinvV, hordV, hviseqV, ⟨newV, hresV⟩, hcharV, hvisdV, hpotV⟩
            postL, ?_, ?_⟩
          · intro d2 hd2 hk2
            rcases List.mem_cons.mp hd2 with rfl | hd3
            · rcases complV with h | h
              · obtain ⟨newL, hresL⟩ := postL.2.2.2.1
                left
                rw [hresL]
                exact List.mem_append_left _ h
              · exact Or.inr h
            · rcases complL d2 hd3 hk2 with h | h
              · exact Or.inl h
              · right
                rw [hviseqV] at h
                exact h
          · intro f2 hf2
            simp only [List.length_cons] at hf2
            obtain ⟨k, rfl⟩ : ∃ k, f2 = k + 1 := ⟨f2 - 1, by omega⟩
            rw [topoVisitList_succ_cons, if_pos hkd]
            rw [irrelV k (by omega)]
            exact irrelL k (by omega)
        · rw [if_neg hkd]
          have hfL : topoPot deps st + ds.length + 1 ≤ fuel := by omega
          obtain ⟨postL, complL, irrelL⟩ := ihL ds st hinv hord
            (fun d2 hd2 => hreach d2 (List.mem_cons_of_mem d hd2)) hfL
          refine ⟨postL, ?_, ?_⟩
          · intro d2 hd2 hk2
            rcases List.mem_cons.mp hd2 with rfl | hd3
            · exact absurd hk2 hkd
            · exact complL d2 hd3 hk2
          · intro f2 hf2
            simp only [List.length_cons] at hf2
            obtain ⟨k, rfl⟩ : ∃ k, f2 = k + 1 := ⟨f2 - 1, by omega⟩
            rw [topoVisitList_succ_cons, if_neg hkd]
            exact irrelL k (by omega)

/-- Soundness of the root loop over the keys: invariants are maintained,
the visiting stack stays empty, every processed key lands in the output,
and any fuel of at least `topoFuel deps` computes the same states. -/
theorem topoFold_sound (deps : List (String × List String)) :
    ∀ (ks : List String) (st : TopoState),
      TopoInv deps st → TopoOrder deps st → st.visiting = [] →
      (∀ k ∈ ks, hasDepKey deps k = true) →
      topoPot deps st + 1 ≤ topoFuel deps →
      TopoInv deps
        (ks.foldl (fun s n => topoVisit deps (topoFuel deps) n s) st) ∧
      TopoOrder deps
        (ks.foldl (fun s n => topoVisit deps (topoFuel deps) n s) st) ∧
      (ks.foldl (fun s n => topoVisit deps (topoFuel deps) n s) st).visiting
        = [] ∧
      (∃ new,
        (ks.foldl (fun s n => topoVisit deps (topoFuel deps) n s) st).result
          = st.result ++ new) ∧
      (∀ x ∈
        (ks.foldl (fun s n => topoVisit deps (topoFuel deps) n s) st).result,
        x ∈ st.result ∨ hasDepKey deps x = true) ∧
      (∀ k ∈ ks, k ∈
        (ks.foldl (fun s n => topoVisit deps (topoFuel deps) n s) st).result)
      ∧
      (∀ f2, topoFuel deps ≤ f2 →
        ks.foldl (fun s n => topoVisit deps f2 n s) st =
          ks.foldl (fun s n => topoVisit deps (topoFuel deps) n s) st) := by
  intro ks
  induction ks with
  | nil =>
    intro st hinv hord hvis _ _
    exact ⟨hinv, hord, hvis, ⟨[], by simp⟩, fun x hx => Or.inl hx,
      by simp, fun _ _ => rfl⟩
  | cons k ks ih =>
    intro st hinv hord hvis hkeys hpot
    simp only [List.foldl_cons]
    have hreach0 : ∀ v ∈ st.visiting, Reaches deps v k := by
      intro v hv
      rw [hvis] at hv
      cases hv
    obtain ⟨postV, complV, irrelV⟩ :=
      (topoVisit_sound deps (topoFuel deps)).1 k st hinv hord
        (hkeys k (List.mem_cons_self k ks)) hreach0 hpot
    obtain ⟨hinvV, hordV, hviseqV, ⟨newV, hresV⟩, hcharV, hvisdV, hpotV⟩ :=
      postV
    have hvisV : (topoVisit deps (topoFuel deps) k st).visiting = [] := by
      rw [hviseqV, hvis]
    obtain ⟨hinvF, hordF, hvisF, ⟨newF, hresF⟩, hcharF, hcomplF, hirrelF⟩ :=
      ih (topoVisit deps (topoFuel deps) k st) hinvV hordV hvisV
        (fun k2 hk2 => hkeys k2 (List.mem_cons_of_mem k hk2)) (by omega)
    refine ⟨hinvF, hordF, hvisF,
      ⟨newV ++ newF, by rw [hresF, hresV, List.append_assoc]⟩, ?_, ?_, ?_⟩
    · intro x hx
      rcases hcharF x hx with hx2 | hk2
      · rcases hcharV x hx2 with hx3 | ⟨hk3, _⟩
        · exact Or.inl hx3
        · exact Or.inr hk3
      · exact Or.inr hk2
    · intro k2 hk2
      rcases List.mem_cons.mp hk2 with rfl | hk3
      · rcases complV with h | h
        · rw [hresF]
          exact List.mem_append_left _ h
        · rw [hvis] at h
          cases h
      · exact hcomplF k2 hk3
    · intro f2 hf2
      rw [irrelV f2 (le_trans hpot hf2)]
      exact hirrelF f2 hf2

/-- The empty-state potential is the full key budget. -/
theorem topoPot_init (deps : List (String × List String)) :
    topoPot deps ⟨[], [], []⟩ + 1 = topoFuel deps := by
  unfold topoPot topoFuel
  have hfe : List.filter
      (fun k => !(TopoState.mk [] [] []).visited.contains k &&
        !(TopoState.mk [] [] []).visiting.contains k)
      (deps.map Prod.fst) = deps.map Prod.fst :=
    List.filter_eq_self.mpr (fun a _ => rfl)
  rw [hfe]

/-- C5.  For every dependency map: the output of the orderer is
duplicate-free and holds exactly the map keys (each model exactly once,
count 1); every non-cyclic `dependsOn` edge (a key dependency `b` of an
output node `a` from which `a` cannot be reached back) points backward —
the dependency precedes the dependent; and the traversal terminates: any
call-stack budget of at least `topoFuel deps` computes the same output,
cycles being cut at nodes currently in the visiting set rather than
recursed into. -/
theorem topologicalSort_spec (deps : List (String × List String)) :
    (topologicalSort deps).Nodup ∧
    (∀ k, k ∈ topologicalSort deps ↔ k ∈ deps.map Prod.fst) ∧
    (∀ k, k ∈ deps.map Prod.fst → (topologicalSort deps).count k = 1) ∧
    (∀ a b, a ∈ topologicalSort deps → b ∈ depsOf deps a →
      hasDepKey deps b = true → ¬ Reaches deps b a →
      (topologicalSort deps).indexOf b < (topologicalSort deps).indexOf a) ∧
    (∀ fuel, topoFuel deps ≤ fuel →
      ((deps.map Prod.fst).foldl
        (fun st n => topoVisit deps fuel n st) ⟨[], [], []⟩).result
        = topologicalSort deps) := by
  have hinv0 : TopoInv deps ⟨[], [], []⟩ :=
    ⟨List.nodup_nil, by simp, by simp, by simp⟩
  have hord0 : TopoOrder deps ⟨[], [], []⟩ := by
    intro a b ha
    cases ha
  have hpot0 : topoPot deps ⟨[], [], []⟩ + 1 ≤ topoFuel deps :=
    le_of_eq (topoPot_init deps)
  obtain ⟨hinvF, hordF, _, ⟨newF, hresF⟩, hcharF, hcomplF, hirrelF⟩ :=
    topoFold_sound deps (deps.map Prod.fst) ⟨[], [], []⟩ hinv0 hord0 rfl
      (fun k hk => mem_keys_lookup_isSome deps k hk) hpot0
  have hsort : topologicalSort deps =
      ((deps.map Prod.fst).foldl
        (fun s n => topoVisit deps (topoFuel deps) n s) ⟨[], [], []⟩).result
    := rfl
  refine ⟨?_, ?_, ?_, ?_, ?_⟩
  · rw [hsort]
    exact hinvF.1
  · intro k
    rw [hsort]
    constructor
    · intro hk
      rcases hcharF k hk with h | h
      · cases h
      · exact lookup_isSome_mem_keys deps k h
    · intro hk
      exact hcomplF k hk
  · intro k hk
    rw [hsort]
    exact List.count_eq_one_of_mem hinvF.1 (hcomplF k hk)
  · intro a b ha hb hkb hnr
    rw [hsort] at ha ⊢
    rcases hordF a b ha hb hkb with h | h
    · exact h
    · exact absurd h hnr
  · intro fuel hfuel
    rw [hsort, hirrelF fuel hfuel]

/-- Witness for C5 on the two-node map A dependsOn B: the output is
[B, A], A is present, and the non-cyclic edge points backward. -/
theorem topologicalSort_spec_witness :
    topologicalSort [("A", ["B"]), ("B", [])] = ["B", "A"] ∧
    "A" ∈ topologicalSort [("A", ["B"]), ("B", [])] ∧
    (topologicalSort [("A", ["B"]), ("B", [])]).indexOf "B"
      < (topologicalSort [("A", ["B"]), ("B", [])]).indexOf "A" := by
  refine ⟨by decide, by decide, ?_⟩
  refine (topologicalSort_spec [("A", ["B"]), ("B", [])]).2.2.2.1 "A" "B"
    (by decide) (by decide) (by decide) ?_
  intro h
  rcases Relation.ReflTransGen.cases_head h with heq | ⟨c, hc, _⟩
  · exact absurd heq (by decide)
  · have hnil : depsOf [("A", ["B"]), ("B", [])] "B" = ([] : List String) :=
      by decide
    rw [hnil] at hc
    cases hc

end NestGen

namespace NestGen

/-! ### C2: cycles terminate; the direct self-reference edge becomes any -/

/-- Constructor-level unfolding of `getTypeScriptType`. -/
theorem getTypeScriptType_mk (spec : Spec) (r ty : Option String)
    (props : Option (List (String × Schema))) (rq : List String)
    (its : Option Schema) (en : Option (List String)) (fm pt : Option String)
    (imports : List String) (cur : Option String) :
    getTypeScriptType spec (.mk r ty props rq its en fm pt) imports cur =
      (if truthyStr r then
        (let dtoName := refLastSegment (r.getD "") ++ "Dto"
         if cur.any (fun c => (c != "") && (dtoName == c)) then
           ("any", imports)
         else (dtoName, insertImport imports dtoName))
      else
        match ty with
        | some "string" => ("string", imports)
        | some "number" => ("number", imports)
        | some "integer" => ("number", imports)
        | some "boolean" => ("boolean", imports)
        | some "array" => getTypeScriptTypeItems spec its imports cur
        | some "object" => ("object", imports)
        | _ => ("any", imports)) := rfl

/-- C2 helper: the code breaks a cycle only at a direct self-reference —
a `$ref` resolving to the currently emitted model name maps to `"any"`
and adds no import. -/
theorem getTypeScriptType_self_ref_any (spec : Spec) (s : Schema)
    (imports : List String) (c : String)
    (href : truthyStr s.ref = true) (hc : c ≠ "")
    (hname : refLastSegment (s.ref.getD "") ++ "Dto" = c) :
    getTypeScriptType spec s imports (some c) = ("any", imports) := by
  obtain ⟨r, ty, props, rq, its, en, fm, pt⟩ := s
  simp only [Schema.ref] at href hname
  have hcond : Option.any (fun c0 => c0 != "" && (c == c0)) (some c)
      = true := by simp [hc]
  rw [getTypeScriptType_mk, if_pos href]
  dsimp only
  rw [hname, if_pos hcond]

/-- Nil unfolding of the collect worklist. -/
theorem collectLoop_nil (spec : Spec) (fuel : Nat) (visited : List String)
    (st : CollectState) :
    collectLoop spec (fuel + 1) [] visited st = st := rfl

/-- Cons unfolding of the collect worklist. -/
theorem collectLoop_cons (spec : Spec) (fuel : Nat) (dtoName : String)
    (rest visited : List String) (st : CollectState) :
    collectLoop spec (fuel + 1) (dtoName :: rest) visited st =
      (if st.allDtos.any (fun p => p.1 == dtoName)
          || visited.contains dtoName then
        collectLoop spec fuel rest visited st
      else
        let visited' := dtoName :: visited
        let schemaName := stripDtoSuffix dtoName
        match spec.originalSchemas.bind
            (fun os => List.lookup schemaName os),
          List.lookup schemaName spec.schemas with
        | some originalSchema, some _ =>
          let dtoSchema := processSchema spec dtoName originalSchema
          let st' : CollectState :=
            ⟨mapSet st.allDtos dtoName dtoSchema,
             mapSet st.dependencies dtoName dtoSchema.imports⟩
          collectLoop spec fuel (dtoSchema.imports ++ rest) visited' st'
        | _, _ => collectLoop spec fuel rest visited' st) := rfl

/-- Work remaining in a collect worklist state: the pending stack plus the
weights of the names that could still make the loop descend. -/
def collectPot (spec : Spec) (pending visited : List String)
    (st : CollectState) : Nat :=
  pending.length +
    (((okDtoNames spec).filter (fun d =>
        !visited.contains d && !st.allDtos.any (fun p => p.1 == d))).map
      (importWeight spec)).sum + 1

/-- `Map.set` leaves every key present and adds the written one. -/
theorem mapSet_any_key {α : Type} (l : List (String × α)) (k : String)
    (v : α) (d : String) :
    (mapSet l k v).any (fun p => p.1 == d)
      = (l.any (fun p => p.1 == d) || (k == d)) := by
  unfold mapSet
  by_cases hk : l.any (fun p => p.1 == k) = true
  · rw [if_pos hk, List.any_map]
    have hfst : ((fun p : String × α => p.1 == d) ∘
        (fun p => if p.1 == k then (k, v) else p))
        = fun p : String × α => p.1 == d := by
      funext p
      by_cases hpk : (p.1 == k) = true
      · have hpk2 : p.1 = k := by simpa using hpk
        simp [Function.comp, hpk, hpk2]
      · simp [Function.comp, hpk]
    rw [hfst]
    cases hkd : (k == d)
    · simp
    · have hdk : k = d := by simpa using hkd
      subst hdk
      simp [hk]
  · rw [if_neg hk, List.any_append]
    simp

/-- With adequate fuel, the collect worklist computes a fuel-independent
answer: the embedded recursion terminates. -/
theorem collectLoop_fuel_irrelevant (spec : Spec) :
    ∀ fuel pending visited st,
      collectPot spec pending visited st ≤ fuel →
      ∀ f2, collectPot spec pending visited st ≤ f2 →
      collectLoop spec f2 pending visited st
        = collectLoop spec fuel pending visited st := by
  intro fuel
  induction fuel with
  | zero =>
    intro pending visited st h
    exact absurd h (by unfold collectPot; omega)
  | succ fuel ih =>
    intro pending visited st h f2 h2
    obtain ⟨k, rfl⟩ : ∃ k, f2 = k + 1 :=
      ⟨f2 - 1, by unfold collectPot at h2; omega⟩
    cases pending with
    | nil => rw [collectLoop_nil, collectLoop_nil]
    | cons d rest =>
      rw [collectLoop_cons, collectLoop_cons]
      by_cases hskip :
          (st.allDtos.any (fun p => p.1 == d) || visited.contains d) = true
      · rw [if_pos hskip, if_pos hskip]
        have hpot : collectPot spec rest visited st + 1
            = collectPot spec (d :: rest) visited st := by
          unfold collectPot
          simp only [List.length_cons]
          omega
        exact ih rest visited st (by omega) k (by omega)
      · rw [if_neg hskip, if_neg hskip]
        dsimp only
        have hnb : st.allDtos.any (fun p => p.1 == d) = false := by
          cases hb : st.allDtos.any (fun p => p.1 == d)
          · rfl
          · exact absurd (by rw [hb]; simp) hskip
        have hnv : visited.contains d = false := by
          cases hb : visited.contains d
          · rfl
          · exact absurd (by rw [hb]; simp) hskip
        cases hmo : spec.originalSchemas.bind
            (fun os => List.lookup (stripDtoSuffix d) os) with
        | none =>
          have hsum := sum_filter_le (okDtoNames spec) (importWeight spec)
            (fun x => !(d :: visited).contains x
              && !st.allDtos.any (fun p => p.1 == x))
            (fun x => !visited.contains x
              && !st.allDtos.any (fun p => p.1 == x))
            (by
              intro x _ hx
              simp only [Bool.and_eq_true, Bool.not_eq_true',
                List.contains_cons, Bool.or_eq_false_iff] at hx ⊢
              exact ⟨hx.1.2, hx.2⟩)
          have hpot : collectPot spec rest (d :: visited) st
              ≤ collectPot spec (d :: rest) visited st - 1 := by
            unfold collectPot
            simp only [List.length_cons]
            omega
          have hp := h
          unfold collectPot at hp
          exact ih rest (d :: visited) st
            (by unfold collectPot at h ⊢; simp only [List.length_cons] at h; omega)
            k (by unfold collectPot at h2 ⊢;
                  simp only [List.length_cons] at h2; omega)
        | some os =>
          cases hml : List.lookup (stripDtoSuffix d) spec.schemas with
          | none =>
            have hsum := sum_filter_le (okDtoNames spec) (importWeight spec)
              (fun x => !(d :: visited).contains x
                && !st.allDtos.any (fun p => p.1 == x))
              (fun x => !visited.contains x
                && !st.allDtos.any (fun p => p.1 == x))
              (by
                intro x _ hx
                simp only [Bool.and_eq_true, Bool.not_eq_true',
                  List.contains_cons, Bool.or_eq_false_iff] at hx ⊢
                exact ⟨hx.1.2, hx.2⟩)
            exact ih rest (d :: visited) st
              (by unfold collectPot at h ⊢;
                  simp only [List.length_cons] at h; omega)
              k (by unfold collectPot at h2 ⊢;
                    simp only [List.length_cons] at h2; omega)
          | some s0 =>
            dsimp only
            have hmem : d ∈ okDtoNames spec :=
              mem_okDtoNames_of_lookups spec d (by rw [hmo]; rfl)
                (by rw [hml]; rfl)
            have hw : importWeight spec d
                = (processSchema spec d os).imports.length + 1 := by
              unfold importWeight
              rw [hmo]
            have hsub := sum_filter_sub_le (okDtoNames spec)
              (importWeight spec)
              (fun x => !visited.contains x
                && !st.allDtos.any (fun p => p.1 == x))
              (fun x => !(d :: visited).contains x
                && !(mapSet st.allDtos d (processSchema spec d os)).any
                  (fun p => p.1 == x))
              d hmem
              (by
                simp only [Bool.and_eq_true, Bool.not_eq_true']
                exact ⟨hnv, hnb⟩)
              (by
                intro x hx
                simp only [Bool.and_eq_true, Bool.not_eq_true',
                  List.contains_cons, Bool.or_eq_false_iff,
                  mapSet_any_key] at hx
                refine ⟨?_, ?_⟩
                · simp only [Bool.and_eq_true, Bool.not_eq_true']
                  exact ⟨hx.1.2, hx.2.1⟩
                · intro hxd
                  subst hxd
                  simpa using hx.1.1)
            rw [hw] at hsub
            exact ih ((processSchema spec d os).imports ++ rest)
              (d :: visited)
              ⟨mapSet st.allDtos d (processSchema spec d os),
               mapSet st.dependencies d (processSchema spec d os).imports⟩
              (by unfold collectPot at h ⊢
                  simp only [List.length_cons, List.length_append] at h ⊢
                  omega)
              k
              (by unfold collectPot at h2 ⊢
                  simp only [List.length_cons, List.length_append] at h2 ⊢
                  omega)

/-- Any visited set and state fit under the `collectFuel` budget. -/
theorem collectFuel_adequate (spec : Spec) (pending visited : List String)
    (st : CollectState) :
    collectPot spec pending visited st ≤ collectFuel spec pending := by
  unfold collectPot collectFuel
  have hle := sum_filter_le (okDtoNames spec) (importWeight spec)
    (fun d => !visited.contains d && !st.allDtos.any (fun p => p.1 == d))
    (fun _ => true) (fun x _ _ => rfl)
  have hfe : (okDtoNames spec).filter (fun _ => true) = okDtoNames spec :=
    List.filter_eq_self.mpr (fun a _ => rfl)
  rw [hfe] at hle
  omega

/-- C2 counterexample.  The two-schema cycle `A -> B -> A` (each an
object whose only property references the other): generation terminates
and emits both models, but the cyclic edges are typed `"BDto"` and
`"ADto"` — no type expression in the batch is `"any"`, refuting the
claim that the edge closing a cycle of any length becomes `"any"`. -/
theorem generateDtoBatch_cycle_counterexample :
    generateDtoBatch
      (Spec.mk [("A", fixObj [("x", fixRef "#/components/schemas/B")] []),
                ("B", fixObj [("y", fixRef "#/components/schemas/A")] [])]
        (some [("A", fixObj [("x", fixRef "#/components/schemas/B")] []),
               ("B", fixObj [("y", fixRef "#/components/schemas/A")] [])]))
      "ADto" (fixObj [("x", fixRef "#/components/schemas/B")] [])
      = [⟨"BDto", [⟨"y?", "ADto", false⟩], ["ADto"]⟩,
         ⟨"ADto", [⟨"x?", "BDto", false⟩], ["BDto"]⟩] ∧
    ∀ dto ∈ generateDtoBatch
      (Spec.mk [("A", fixObj [("x", fixRef "#/components/schemas/B")] []),
                ("B", fixObj [("y", fixRef "#/components/schemas/A")] [])]
        (some [("A", fixObj [("x", fixRef "#/components/schemas/B")] []),
               ("B", fixObj [("y", fixRef "#/components/schemas/A")] [])]))
      "ADto" (fixObj [("x", fixRef "#/components/schemas/B")] []),
      ∀ p ∈ dto.properties, p.type ≠ "any" := by
  constructor
  · decide
  · decide

/-- C2 amended.  Generation on a cyclic reference graph terminates, and
the cycle is broken with `"any"` only at a DIRECT self-reference: a
`$ref` resolving to the currently emitted model name maps to `"any"`
(first conjunct); the collect worklist computes a fuel-independent
answer once the fuel meets the `collectPot` budget, and `collectFuel`
always suffices (second and third conjuncts), so the traversal embedded
here terminates on every input including cycles; mutual cycles keep the
referenced model names as type expressions (see the counterexample). -/
theorem collect_cycle_terminates_selfref_any :
    (∀ (spec : Spec) (s : Schema) (imports : List String) (c : String),
      truthyStr s.ref = true → c ≠ "" →
      refLastSegment (s.ref.getD "") ++ "Dto" = c →
      getTypeScriptType spec s imports (some c) = ("any", imports)) ∧
    (∀ (spec : Spec) (fuel : Nat) (pending visited : List String)
      (st : CollectState),
      collectPot spec pending visited st ≤ fuel →
      collectLoop spec fuel pending visited st
        = collectLoop spec (collectFuel spec pending) pending visited st) ∧
    (∀ (spec : Spec) (pending visited : List String) (st : CollectState),
      collectPot spec pending visited st ≤ collectFuel spec pending) := by
  refine ⟨?_, ?_, collectFuel_adequate⟩
  · intro spec s imports c h1 h2 h3
    exact getTypeScriptType_self_ref_any spec s imports c h1 h2 h3
  · intro spec fuel pending visited st h
    exact collectLoop_fuel_irrelevant spec (collectFuel spec pending)
      pending visited st (collectFuel_adequate spec pending visited st)
      fuel h

/-- Witness for C2: a self-referencing `$ref` inside model `ADto` maps to
`"any"` with no import added, and a small worklist run already computes
the fuel-independent answer. -/
theorem collect_cycle_terminates_selfref_any_witness :
    getTypeScriptType (Spec.mk [] none)
      (fixRef "#/components/schemas/A") [] (some "ADto") = ("any", []) ∧
    collectLoop (Spec.mk [] none) 5 ["XDto"] [] ⟨[], []⟩
      = collectLoop (Spec.mk [] none)
          (collectFuel (Spec.mk [] none) ["XDto"]) ["XDto"] [] ⟨[], []⟩ :=
  ⟨collect_cycle_terminates_selfref_any.1 (Spec.mk [] none)
      (fixRef "#/components/schemas/A") [] "ADto" (by decide) (by decide)
      (by decide),
   collect_cycle_terminates_selfref_any.2.1 (Spec.mk [] none) 5 ["XDto"]
      [] ⟨[], []⟩ (by decide)⟩

end NestGen

namespace NestGen

/-! ### C1: names in type expressions vs the emitted batch -/

/-- Strip trailing `[]` array markers from a type expression, on the
reversed character list. -/
def baseTypeChars : List Char → List Char
  | c1 :: c2 :: rest =>
    if c1 = ']' ∧ c2 = '[' then baseTypeChars rest else c1 :: c2 :: rest
  | l => l

/-- The base model or primitive name of a type expression: the
expression with all trailing `[]` pairs removed. -/
def baseTypeName (t : String) : String :=
  String.mk (baseTypeChars t.data.reverse).reverse

/-- The non-model type expressions the Type Mapper can produce. -/
def basePrims : List String := ["string", "number", "boolean", "object", "any"]

/-- Stripping one trailing `[]`. -/
theorem baseTypeName_append_brackets (t : String) :
    baseTypeName (t ++ "[]") = baseTypeName t := by
  unfold baseTypeName
  have hdata : (t ++ "[]").data = t.data ++ ['[', ']'] := by
    simp [String.data_append]
  rw [hdata, List.reverse_append]
  show String.mk (baseTypeChars (']' :: '[' :: t.data.reverse)).reverse
    = String.mk (baseTypeChars t.data.reverse).reverse
  rw [baseTypeChars, if_pos ⟨rfl, rfl⟩]

/-- A name ending in `Dto` is its own base. -/
theorem baseTypeName_append_Dto (x : String) :
    baseTypeName (x ++ "Dto") = x ++ "Dto" := by
  unfold baseTypeName
  have hdata : (x ++ "Dto").data = x.data ++ ['D', 't', 'o'] := by
    simp [String.data_append]
  rw [hdata, List.reverse_append]
  show String.mk (baseTypeChars ('o' :: 't' :: ('D' :: x.data.reverse))).reverse
    = String.mk (x.data ++ ['D', 't', 'o'])
  rw [baseTypeChars, if_neg (by simp)]
  apply String.ext
  show ('o' :: 't' :: 'D' :: x.data.reverse).reverse = x.data ++ ['D', 't', 'o']
  simp

/-- `Set.add` keeps old members. -/
theorem mem_insertImport_of_mem (l : List String) (y x : String)
    (h : x ∈ l) : x ∈ insertImport l y := by
  unfold insertImport
  by_cases hy : l.contains y = true
  · rw [if_pos hy]; exact h
  · rw [if_neg hy]; exact List.mem_append_left _ h

/-- `Set.add` makes the added name a member. -/
theorem mem_insertImport_self (l : List String) (y : String) :
    y ∈ insertImport l y := by
  unfold insertImport
  by_cases hy : l.contains y = true
  · rw [if_pos hy]
    exact (contains_true_iff _ _).mp hy
  · rw [if_neg hy]
    exact List.mem_append_right _ (List.mem_singleton.mpr rfl)

/-- Unfolding of the array arm at a present item schema. -/
theorem getTypeScriptTypeItems_some (spec : Spec) (it : Schema)
    (imports : List String) (cur : Option String) :
    getTypeScriptTypeItems spec (some it) imports cur =
      (let step := getTypeScriptType spec it imports cur
       if it.type == some "object" && it.properties.isSome
          && !truthyStr it.ref then
         match findMatchingExistingDto spec it with
         | some m => (m ++ "[]", insertImport step.2 m)
         | none => ("object[]", step.2)
       else
         (step.1 ++ "[]", step.2)) := rfl

/-- Unfolding of the array arm at a missing item schema. -/
theorem getTypeScriptTypeItems_none (spec : Spec)
    (imports : List String) (cur : Option String) :
    getTypeScriptTypeItems spec none imports cur = ("any[]", imports) := rfl

/-- A reused existing model name always ends in `Dto`. -/
theorem findMatchingExistingDto_name {spec : Spec} {s : Schema} {m : String}
    (h : findMatchingExistingDto spec s = some m) : ∃ q, m = q ++ "Dto" := by
  unfold findMatchingExistingDto at h
  cases hf : spec.schemas.find? (fun p => schemasMatch s p.2) with
  | none => rw [hf] at h; cases h
  | some q =>
    rw [hf] at h
    have h2 : q.1 ++ "Dto" = m := by simpa using h
    exact ⟨q.1, h2.symm⟩

/-- Closure of the Type Mapper: the imports only grow, and the base name
of the computed type expression is either a primitive or a member of the
computed imports. -/
theorem getTypeScriptType_closure (spec : Spec) :
    ∀ n : Nat, ∀ s : Schema, sizeOf s < n → ∀ imports cur,
      (∀ x ∈ imports, x ∈ (getTypeScriptType spec s imports cur).2) ∧
      (baseTypeName (getTypeScriptType spec s imports cur).1 ∈ basePrims ∨
        baseTypeName (getTypeScriptType spec s imports cur).1
          ∈ (getTypeScriptType spec s imports cur).2) := by
  intro n
  induction n with
  | zero => intro s h; exact absurd h (Nat.not_lt_zero _)
  | succ n ih =>
    intro s hsz imports cur
    obtain ⟨r, ty, props, rq, its, en, fm, pt⟩ := s
    have hits : ∀ it, its = some it → sizeOf it < n := by
      intro it hit
      subst hit
      have h1 : sizeOf it
          < sizeOf (Schema.mk r ty props rq (some it) en fm pt) :=
        sizeOf_lt_of_items rfl
      omega
    rw [getTypeScriptType_mk]
    by_cases href : truthyStr r = true
    · rw [if_pos href]
      by_cases hself : (Option.any
          (fun c => c != "" && (refLastSegment (r.getD "") ++ "Dto" == c))
          cur) = true
      · rw [if_pos hself]
        exact ⟨fun x hx => hx,
          Or.inl (show baseTypeName "any" ∈ basePrims by decide)⟩
      · rw [if_neg hself]
        refine ⟨fun x hx => mem_insertImport_of_mem _ _ _ hx, Or.inr ?_⟩
        rw [baseTypeName_append_Dto]
        exact mem_insertImport_self _ _
    · rw [if_neg href]
      split
      · exact ⟨fun x hx => hx,
          Or.inl (show baseTypeName "string" ∈ basePrims by decide)⟩
      · exact ⟨fun x hx => hx,
          Or.inl (show baseTypeName "number" ∈ basePrims by decide)⟩
      · exact ⟨fun x hx => hx,
          Or.inl (show baseTypeName "number" ∈ basePrims by decide)⟩
      · exact ⟨fun x hx => hx,
          Or.inl (show baseTypeName "boolean" ∈ basePrims by decide)⟩
      · -- array
        rcases its with _ | it
        · rw [getTypeScriptTypeItems_none]
          exact ⟨fun x hx => hx,
            Or.inl (show baseTypeName "any[]" ∈ basePrims by decide)⟩
        · obtain ⟨hmonoI, hbaseI⟩ := ih it (hits it rfl) imports cur
          rw [getTypeScriptTypeItems_some]
          dsimp only
          by_cases hg : (it.type == some "object" && it.properties.isSome
              && !truthyStr it.ref) = true
          · rw [if_pos hg]
            cases hf : findMatchingExistingDto spec it with
            | some m =>
              obtain ⟨q, rfl⟩ := findMatchingExistingDto_name hf
              refine ⟨fun x hx =>
                mem_insertImport_of_mem _ _ _ (hmonoI x hx), Or.inr ?_⟩
              rw [baseTypeName_append_brackets, baseTypeName_append_Dto]
              exact mem_insertImport_self _ _
            | none =>
              exact ⟨hmonoI,
                Or.inl (show baseTypeName "object[]" ∈ basePrims by decide)⟩
          · rw [if_neg hg]
            refine ⟨hmonoI, ?_⟩
            rw [baseTypeName_append_brackets]
            exact hbaseI
      · exact ⟨fun x hx => hx,
          Or.inl (show baseTypeName "object" ∈ basePrims by decide)⟩
      · exact ⟨fun x hx => hx,
          Or.inl (show baseTypeName "any" ∈ basePrims by decide)⟩

/-- A synthesized inline name is its own base. -/
theorem baseTypeName_inline_item (p c : String) :
    baseTypeName (p ++ c ++ "ItemDto") = p ++ c ++ "ItemDto" := by
  have h : p ++ c ++ "ItemDto" = (p ++ c ++ "Item") ++ "Dto" := by
    rw [String.append_assoc (p ++ c) "Item" "Dto"]
    rfl
  rw [h, baseTypeName_append_Dto]

/-- Closure of one property mapping: imports only grow, and the base of
the recorded type expression is a primitive or an emitted import. -/
theorem processProperty_closure (spec : Spec) (name : String) (s : Schema)
    (isRequired : Bool) (imports : List String) (cur : Option String) :
    (∀ x ∈ imports,
      x ∈ (processProperty spec name s isRequired imports cur).2) ∧
    (baseTypeName (processProperty spec name s isRequired imports cur).1.type
        ∈ basePrims ∨
      baseTypeName (processProperty spec name s isRequired imports cur).1.type
        ∈ (processProperty spec name s isRequired imports cur).2) := by
  obtain ⟨hmono0, hbase0⟩ := getTypeScriptType_closure spec (sizeOf s + 1) s
    (Nat.lt_succ_self _) imports cur
  simp only [processProperty]
  by_cases hg1 : (s.type == some "object" && s.properties.isSome
      && !truthyStr s.ref) = true
  · simp only [hg1, if_true]
    cases hf : findMatchingExistingDto spec s with
    | some m =>
      obtain ⟨q, rfl⟩ := findMatchingExistingDto_name hf
      by_cases harr : (s.type == some "array") = true
      · simp only [harr, if_true]
        cases hits : s.items with
        | none =>
          refine ⟨fun x hx => mem_insertImport_of_mem _ _ _ (hmono0 x hx),
            Or.inr ?_⟩
          rw [baseTypeName_append_Dto]
          exact mem_insertImport_self _ _
        | some it =>
          obtain ⟨hmonoI, _⟩ := getTypeScriptType_closure spec
            (sizeOf it + 1) it (Nat.lt_succ_self _)
            (insertImport
              (getTypeScriptType spec s imports cur).2 (q ++ "Dto")) cur
          by_cases hg2 : (it.type == some "object" && it.properties.isSome
              && !truthyStr it.ref) = true
          · simp only [hg2, if_true]
            cases hf2 : findMatchingExistingDto spec it with
            | some m2 =>
              obtain ⟨q2, rfl⟩ := findMatchingExistingDto_name hf2
              refine ⟨fun x hx => mem_insertImport_of_mem _ _ _
                (hmonoI _ (mem_insertImport_of_mem _ _ _ (hmono0 x hx))),
                Or.inr ?_⟩
              rw [baseTypeName_append_brackets, baseTypeName_append_Dto]
              exact mem_insertImport_self _ _
            | none =>
              refine ⟨fun x hx => mem_insertImport_of_mem _ _ _
                (hmonoI _ (mem_insertImport_of_mem _ _ _ (hmono0 x hx))),
                Or.inr ?_⟩
              rw [baseTypeName_append_brackets, baseTypeName_inline_item]
              exact mem_insertImport_self _ _
          · simp only [hg2, Bool.false_eq_true, if_false]
            refine ⟨fun x hx =>
              hmonoI _ (mem_insertImport_of_mem _ _ _ (hmono0 x hx)),
              Or.inr ?_⟩
            rw [baseTypeName_append_Dto]
            exact hmonoI _ (mem_insertImport_self _ _)
      · simp only [harr, Bool.false_eq_true, if_false]
        refine ⟨fun x hx => mem_insertImport_of_mem _ _ _ (hmono0 x hx),
          Or.inr ?_⟩
        rw [baseTypeName_append_Dto]
        exact mem_insertImport_self _ _
    | none =>
      by_cases harr : (s.type == some "array") = true
      · simp only [harr, if_true]
        cases hits : s.items with
        | none =>
          refine ⟨fun x hx => mem_insertImport_of_mem _ _ _ (hmono0 x hx),
            Or.inr ?_⟩
          rw [baseTypeName_append_Dto]
          exact mem_insertImport_self _ _
        | some it =>
          obtain ⟨hmonoI, _⟩ := getTypeScriptType_closure spec
            (sizeOf it + 1) it (Nat.lt_succ_self _)
            (insertImport (getTypeScriptType spec s imports cur).2
              (parentTypeNameOf cur ++ capitalizeJs name ++ "Dto")) cur
          by_cases hg2 : (it.type == some "object" && it.properties.isSome
              && !truthyStr it.ref) = true
          · simp only [hg2, if_true]
            cases hf2 : findMatchingExistingDto spec it with
            | some m2 =>
              obtain ⟨q2, rfl⟩ := findMatchingExistingDto_name hf2
              refine ⟨fun x hx => mem_insertImport_of_mem _ _ _
                (hmonoI _ (mem_insertImport_of_mem _ _ _ (hmono0 x hx))),
                Or.inr ?_⟩
              rw [baseTypeName_append_brackets, baseTypeName_append_Dto]
              exact mem_insertImport_self _ _
            | none =>
              refine ⟨fun x hx => mem_insertImport_of_mem _ _ _
                (hmonoI _ (mem_insertImport_of_mem _ _ _ (hmono0 x hx))),
                Or.inr ?_⟩
              rw [baseTypeName_append_brackets, baseTypeName_inline_item]
              exact mem_insertImport_self _ _
          · simp only [hg2, Bool.false_eq_true, if_false]
            refine ⟨fun x hx =>
              hmonoI _ (mem_insertImport_of_mem _ _ _ (hmono0 x hx)),
              Or.inr ?_⟩
            rw [baseTypeName_append_Dto]
            exact hmonoI _ (mem_insertImport_self _ _)
      · simp only [harr, Bool.false_eq_true, if_false]
        refine ⟨fun x hx => mem_insertImport_of_mem _ _ _ (hmono0 x hx),
          Or.inr ?_⟩
        rw [baseTypeName_append_Dto]
        exact mem_insertImport_self _ _
  · simp only [hg1, Bool.false_eq_true, if_false]
    by_cases harr : (s.type == some "array") = true
    · simp only [harr, if_true]
      cases hits : s.items with
      | none => exact ⟨hmono0, hbase0⟩
      | some it =>
        obtain ⟨hmonoI, _⟩ := getTypeScriptType_closure spec
          (sizeOf it + 1) it (Nat.lt_succ_self _)
          (getTypeScriptType spec s imports cur).2 cur
        by_cases hg2 : (it.type == some "object" && it.properties.isSome
            && !truthyStr it.ref) = true
        · simp only [hg2, if_true]
          cases hf2 : findMatchingExistingDto spec it with
          | some m2 =>
            obtain ⟨q2, rfl⟩ := findMatchingExistingDto_name hf2
            refine ⟨fun x hx => mem_insertImport_of_mem _ _ _
              (hmonoI _ (hmono0 x hx)), Or.inr ?_⟩
            rw [baseTypeName_append_brackets, baseTypeName_append_Dto]
            exact mem_insertImport_self _ _
          | none =>
            refine ⟨fun x hx => mem_insertImport_of_mem _ _ _
              (hmonoI _ (hmono0 x hx)), Or.inr ?_⟩
            rw [baseTypeName_append_brackets, baseTypeName_inline_item]
            exact mem_insertImport_self _ _
        · simp only [hg2, Bool.false_eq_true, if_false]
          refine ⟨fun x hx => hmonoI _ (hmono0 x hx), ?_⟩
          rcases hbase0 with h | h
          · exact Or.inl h
          · exact Or.inr (hmonoI _ h)
    · simp only [harr, Bool.false_eq_true, if_false]
      exact ⟨hmono0, hbase0⟩

/-- Closure of a whole model descriptor: every property's base type is a
primitive or one of the descriptor's imports. -/
theorem processSchema_closure (spec : Spec) (dtoName : String) (s : Schema) :
    ∀ p ∈ (processSchema spec dtoName s).properties,
      baseTypeName p.type ∈ basePrims ∨
        baseTypeName p.type ∈ (processSchema spec dtoName s).imports := by
  unfold processSchema
  cases hp : s.properties with
  | none =>
    intro p hp2
    cases hp2
  | some ps =>
    dsimp only
    have hfold : ∀ (l : List (String × Schema))
        (acc : List DtoProperty × List String),
        (∀ p ∈ acc.1, baseTypeName p.type ∈ basePrims ∨
          baseTypeName p.type ∈ acc.2) →
        ∀ p ∈ (l.foldl (fun acc pr =>
          let r := processProperty spec pr.1 pr.2 (s.required.contains pr.1)
            acc.2 (some dtoName)
          (acc.1 ++ [r.1], r.2)) acc).1,
          baseTypeName p.type ∈ basePrims ∨
            baseTypeName p.type ∈ (l.foldl (fun acc pr =>
              let r := processProperty spec pr.1 pr.2
                (s.required.contains pr.1) acc.2 (some dtoName)
              (acc.1 ++ [r.1], r.2)) acc).2 := by
      intro l
      induction l with
      | nil => intro acc h; exact h
      | cons pr l ih =>
        intro acc hacc
        simp only [List.foldl_cons]
        apply ih
        obtain ⟨hmono, hbase⟩ := processProperty_closure spec pr.1 pr.2
          (s.required.contains pr.1) acc.2 (some dtoName)
        intro p hp2
        rcases List.mem_append.mp hp2 with hp3 | hp3
        · rcases hacc p hp3 with h | h
          · exact Or.inl h
          · exact Or.inr (hmono _ h)
        · rcases List.mem_singleton.mp hp3 with rfl
          exact hbase
    exact hfold ps ([], []) (fun p hp2 => absurd hp2 (List.not_mem_nil p))

/-- Looking past a head entry with a different key. -/
theorem lookup_cons_ne {α : Type} (n ka : String) (va : α)
    (l : List (String × α)) (h : (n == ka) = false) :
    List.lookup n ((ka, va) :: l) = List.lookup n l := by
  rw [List.lookup_cons, h]

/-- Looking up the head entry's key. -/
theorem lookup_cons_self {α : Type} (n : String) (va : α)
    (l : List (String × α)) :
    List.lookup n ((n, va) :: l) = some va := by
  rw [List.lookup_cons, beq_self_eq_true]

/-- Reading a key other than the written one through the in-place update
map of `Map.set`. -/
theorem lookup_map_ne {α : Type} (l : List (String × α)) (k : String)
    (v : α) (n : String) (hnk : n ≠ k) :
    List.lookup n (l.map (fun p => if p.1 == k then (k, v) else p))
      = List.lookup n l := by
  induction l with
  | nil => rfl
  | cons a l ih =>
    obtain ⟨ka, va⟩ := a
    simp only [List.map_cons]
    dsimp only
    by_cases hak : (ka == k) = true
    · have hak2 : ka = k := by simpa using hak
      rw [if_pos hak]
      have h1 : (n == k) = false := by simpa using hnk
      have h2 : (n == ka) = false := by rw [hak2]; exact h1
      rw [lookup_cons_ne _ _ _ _ h1, lookup_cons_ne _ _ _ _ h2]
      exact ih
    · rw [if_neg hak]
      by_cases hna : (n == ka) = true
      · have hna2 : n = ka := by simpa using hna
        subst hna2
        rw [lookup_cons_self, lookup_cons_self]
      · have hna2 : (n == ka) = false := by simpa using hna
        rw [lookup_cons_ne _ _ _ _ hna2, lookup_cons_ne _ _ _ _ hna2]
        exact ih

/-- Reading the written key through the in-place update map of
`Map.set`, when the key is present. -/
theorem lookup_map_self {α : Type} (l : List (String × α)) (k : String)
    (v : α) (hk : l.any (fun p => p.1 == k) = true) :
    List.lookup k (l.map (fun p => if p.1 == k then (k, v) else p))
      = some v := by
  induction l with
  | nil => simp at hk
  | cons a l ih =>
    obtain ⟨ka, va⟩ := a
    simp only [List.map_cons]
    dsimp only
    by_cases hak : (ka == k) = true
    · rw [if_pos hak, lookup_cons_self]
    · have hak2 : (ka == k) = false := by simpa using hak
      have hk2 : l.any (fun p => p.1 == k) = true := by
        simpa [List.any_cons, hak2] using hk
      have hka : (k == ka) = false := by
        cases hb : (k == ka)
        · rfl
        · have hkka : k = ka := by simpa using hb
          subst hkka
          simp at hak2
      rw [if_neg hak, lookup_cons_ne _ _ _ _ hka]
      exact ih hk2

/-- Reading through the append form of `Map.set`, when the key is
absent. -/
theorem lookup_append_single {α : Type} (l : List (String × α))
    (k : String) (v : α) (n : String)
    (hk : l.any (fun p => p.1 == k) = false) :
    List.lookup n (l ++ [(k, v)])
      = if n = k then some v else List.lookup n l := by
  induction l with
  | nil =>
    by_cases hnk : n = k
    · subst hnk
      rw [if_pos rfl, List.nil_append, lookup_cons_self]
    · have h1 : (n == k) = false := by simpa using hnk
      rw [if_neg hnk, List.nil_append, lookup_cons_ne _ _ _ _ h1]
  | cons a l ih =>
    obtain ⟨ka, va⟩ := a
    have hak : (ka == k) = false := by
      cases hb : (ka == k)
      · rfl
      · rw [List.any_cons] at hk
        dsimp only at hk
        rw [hb] at hk
        simp at hk
    have hk2 : l.any (fun p => p.1 == k) = false := by
      rw [List.any_cons] at hk
      dsimp only at hk
      rw [hak] at hk
      simpa using hk
    rw [List.cons_append]
    by_cases hna : (n == ka) = true
    · have hna2 : n = ka := by simpa using hna
      subst hna2
      have hnk : ¬ n = k := by
        intro h
        rw [h] at hak
        simp at hak
      rw [lookup_cons_self, if_neg hnk, lookup_cons_self]
    · have hna2 : (n == ka) = false := by simpa using hna
      rw [lookup_cons_ne _ _ _ _ hna2, lookup_cons_ne _ _ _ _ hna2,
        ih hk2]

/-- `Map.set` then `Map.get`: the written key reads back the value, any
other key is untouched. -/
theorem lookup_mapSet {α : Type} (l : List (String × α)) (k : String)
    (v : α) (n : String) :
    List.lookup n (mapSet l k v)
      = if n = k then some v else List.lookup n l := by
  unfold mapSet
  by_cases hk : l.any (fun p => p.1 == k) = true
  · rw [if_pos hk]
    by_cases hnk : n = k
    · subst hnk
      rw [if_pos rfl]
      exact lookup_map_self l n v hk
    · rw [if_neg hnk]
      exact lookup_map_ne l k v n hnk
  · rw [if_neg hk]
    exact lookup_append_single l k v n (by
      cases hb : l.any (fun p => p.1 == k)
      · rfl
      · exact absurd hb hk)

/-- `Map.set` never loses a key. -/
theorem lookup_mapSet_isSome_mono {α : Type} (l : List (String × α))
    (k : String) (v : α) (n : String)
    (h : (List.lookup n l).isSome = true) :
    (List.lookup n (mapSet l k v)).isSome = true := by
  rw [lookup_mapSet]
  by_cases hnk : n = k
  · rw [if_pos hnk]; rfl
  · rw [if_neg hnk]; exact h

/-- A well-formed model descriptor: every property's base type is a
primitive or one of the descriptor's imports. -/
def DtoOkP (d : DtoSchema) : Prop :=
  ∀ p ∈ d.properties, baseTypeName p.type ∈ basePrims ∨
    baseTypeName p.type ∈ d.imports

/-- The invariant of `generateAllDtos`' accumulator: stored descriptors
carry their own key as name and are well formed, and the `allDtos` and
`dependencies` maps hold the same keys. -/
def GenInv (st : GenState) : Prop :=
  (∀ n d, List.lookup n st.allDtos = some d → d.name = n ∧ DtoOkP d) ∧
  (∀ n, (List.lookup n st.allDtos).isSome = true ↔
    (List.lookup n st.dependencies).isSome = true)

/-- One first-pass step preserves the accumulator invariant. -/
theorem genFirstPassStep_inv (spec : Spec)
    (os : List (String × Schema)) (st : GenState) (entry : String × Schema)
    (h : GenInv st) : GenInv (genFirstPassStep spec os st entry) := by
  obtain ⟨h1, h2⟩ := h
  unfold genFirstPassStep
  dsimp only
  constructor
  · intro n d hd
    rw [lookup_mapSet] at hd
    by_cases hn : n = entry.1 ++ "Dto"
    · rw [if_pos hn] at hd
      have hdd := Option.some.inj hd
      subst hdd
      exact ⟨by rw [hn]; rfl, processSchema_closure spec _ _⟩
    · rw [if_neg hn] at hd
      exact h1 n d hd
  · intro n
    rw [lookup_mapSet, lookup_mapSet]
    by_cases hn : n = entry.1 ++ "Dto"
    · rw [if_pos hn, if_pos hn]
      simp
    · rw [if_neg hn, if_neg hn]
      exact h2 n

/-- One second-pass step preserves the accumulator invariant. -/
theorem genSecondPassStep_inv (spec : Spec) (st : GenState)
    (entry : String × Schema) (h : GenInv st) :
    GenInv (genSecondPassStep spec st entry) := by
  obtain ⟨h1, h2⟩ := h
  unfold genSecondPassStep
  by_cases hb : st.allDtos.any (fun p => p.1 == entry.1) = true
  · rw [if_pos hb]
    exact ⟨h1, h2⟩
  · rw [if_neg hb]
    dsimp only
    constructor
    · intro n d hd
      rw [lookup_mapSet] at hd
      by_cases hn : n = entry.1
      · rw [if_pos hn] at hd
        have hdd := Option.some.inj hd
        subst hdd
        exact ⟨by rw [hn]; rfl, processSchema_closure spec _ _⟩
      · rw [if_neg hn] at hd
        exact h1 n d hd
    · intro n
      rw [lookup_mapSet, lookup_mapSet]
      by_cases hn : n = entry.1
      · rw [if_pos hn, if_pos hn]
        simp
      · rw [if_neg hn, if_neg hn]
        exact h2 n

/-- First-pass steps never lose an `allDtos` key. -/
theorem genFirstPassStep_lookup_mono (spec : Spec)
    (os : List (String × Schema)) (st : GenState) (entry : String × Schema)
    (n : String) (h : (List.lookup n st.allDtos).isSome = true) :
    (List.lookup n (genFirstPassStep spec os st entry).allDtos).isSome
      = true := by
  unfold genFirstPassStep
  dsimp only
  exact lookup_mapSet_isSome_mono _ _ _ _ h

/-- Second-pass steps never lose an `allDtos` key. -/
theorem genSecondPassStep_lookup_mono (spec : Spec) (st : GenState)
    (entry : String × Schema) (n : String)
    (h : (List.lookup n st.allDtos).isSome = true) :
    (List.lookup n (genSecondPassStep spec st entry).allDtos).isSome
      = true := by
  unfold genSecondPassStep
  by_cases hb : st.allDtos.any (fun p => p.1 == entry.1) = true
  · rw [if_pos hb]
    exact h
  · rw [if_neg hb]
    dsimp only
    exact lookup_mapSet_isSome_mono _ _ _ _ h

/-- The whole first pass preserves the invariant. -/
theorem firstPass_inv (spec : Spec) (os : List (String × Schema)) :
    ∀ (entries : List (String × Schema)) (st : GenState), GenInv st →
      GenInv (entries.foldl (genFirstPassStep spec os) st) := by
  intro entries
  induction entries with
  | nil => intro st h; exact h
  | cons e es ih =>
    intro st h
    exact ih _ (genFirstPassStep_inv spec os st e h)

/-- The whole second pass preserves the invariant. -/
theorem secondPass_inv (spec : Spec) :
    ∀ (entries : List (String × Schema)) (st : GenState), GenInv st →
      GenInv (entries.foldl (genSecondPassStep spec) st) := by
  intro entries
  induction entries with
  | nil => intro st h; exact h
  | cons e es ih =>
    intro st h
    exact ih _ (genSecondPassStep_inv spec st e h)

/-- The whole first pass never loses an `allDtos` key. -/
theorem firstPass_lookup_mono (spec : Spec) (os : List (String × Schema)) :
    ∀ (entries : List (String × Schema)) (st : GenState) (n : String),
      (List.lookup n st.allDtos).isSome = true →
      (List.lookup n
        ((entries.foldl (genFirstPassStep spec os) st)).allDtos).isSome
        = true := by
  intro entries
  induction entries with
  | nil => intro st n h; exact h
  | cons e es ih =>
    intro st n h
    exact ih _ n (genFirstPassStep_lookup_mono spec os st e n h)

/-- The whole second pass never loses an `allDtos` key. -/
theorem secondPass_lookup_mono (spec : Spec) :
    ∀ (entries : List (String × Schema)) (st : GenState) (n : String),
      (List.lookup n st.allDtos).isSome = true →
      (List.lookup n
        ((entries.foldl (genSecondPassStep spec) st)).allDtos).isSome
        = true := by
  intro entries
  induction entries with
  | nil => intro st n h; exact h
  | cons e es ih =>
    intro st n h
    exact ih _ n (genSecondPassStep_lookup_mono spec st e n h)

/-- After the first pass, each document schema key has its dto key. -/
theorem firstPass_keys (spec : Spec) (os : List (String × Schema)) :
    ∀ (entries : List (String × Schema)) (st : GenState),
      ∀ e ∈ entries,
        (List.lookup (e.1 ++ "Dto")
          ((entries.foldl (genFirstPassStep spec os) st)).allDtos).isSome
          = true := by
  intro entries
  induction entries with
  | nil => intro st e he; cases he
  | cons e2 es ih =>
    intro st e he
    rcases List.mem_cons.mp he with rfl | he2
    · simp only [List.foldl_cons]
      apply firstPass_lookup_mono
      unfold genFirstPassStep
      dsimp only
      rw [lookup_mapSet, if_pos rfl]
      rfl
    · simp only [List.foldl_cons]
      exact ih _ e he2

/-- Key coverage of the orderer output (shared form of the facts used by
the batch lemma): the output is duplicate-free and holds exactly the
dependency-map keys. -/
theorem topologicalSort_keys (deps : List (String × List String)) :
    (topologicalSort deps).Nodup ∧
    (∀ k, k ∈ topologicalSort deps ↔ k ∈ deps.map Prod.fst) := by
  have hinv0 : TopoInv deps ⟨[], [], []⟩ :=
    ⟨List.nodup_nil, by simp, by simp, by simp⟩
  have hord0 : TopoOrder deps ⟨[], [], []⟩ := by
    intro a b ha
    cases ha
  have hpot0 : topoPot deps ⟨[], [], []⟩ + 1 ≤ topoFuel deps :=
    le_of_eq (topoPot_init deps)
  obtain ⟨hinvF, _, _, _, hcharF, hcomplF, _⟩ :=
    topoFold_sound deps (deps.map Prod.fst) ⟨[], [], []⟩ hinv0 hord0 rfl
      (fun k hk => mem_keys_lookup_isSome deps k hk) hpot0
  have hsort : topologicalSort deps =
      ((deps.map Prod.fst).foldl
        (fun s n => topoVisit deps (topoFuel deps) n s) ⟨[], [], []⟩).result
    := rfl
  refine ⟨?_, ?_⟩
  · rw [hsort]
    exact hinvF.1
  · intro k
    rw [hsort]
    constructor
    · intro hk
      rcases hcharF k hk with h | h
      · cases h
      · exact lookup_isSome_mem_keys deps k h
    · intro hk
      exact hcomplF k hk

/-- The batch extraction step: looking every ordered name up in a map
whose values carry their own keys as names reproduces the ordered name
list. -/
theorem filterMap_lookup_names (sorted : List String)
    (m : List (String × DtoSchema))
    (hvals : ∀ n d, List.lookup n m = some d → d.name = n)
    (hall : ∀ n ∈ sorted, (List.lookup n m).isSome = true) :
    (sorted.filterMap (fun n => List.lookup n m)).map DtoSchema.name
      = sorted := by
  induction sorted with
  | nil => rfl
  | cons n rest ih =>
    have hs := hall n (List.mem_cons_self n rest)
    cases hd : List.lookup n m with
    | none => rw [hd] at hs; cases hs
    | some d =>
      simp only [List.filterMap_cons, hd, List.map_cons]
      rw [hvals n d hd,
        ih (fun x hx => hall x (List.mem_cons_of_mem n hx))]

/-- C1 counterexample.  A single schema `A` whose property references a
schema `Missing` absent from the document: the emitted batch holds only
`ADto`, whose property is typed `"MissingDto"` — a model name that names
no model of the batch and is not `"any"`, refuting the claim. -/
theorem generateAllDtos_dangling_counterexample :
    (generateAllDtos (Spec.mk
        [("A", fixObj [("x", fixRef "#/components/schemas/Missing")] [])]
        none)).schemas
      = [⟨"ADto", [⟨"x?", "MissingDto", false⟩], ["MissingDto"]⟩] ∧
    "MissingDto" ∉ ((generateAllDtos (Spec.mk
        [("A", fixObj [("x", fixRef "#/components/schemas/Missing")] [])]
        none)).schemas.map DtoSchema.name) ∧
    "MissingDto" ≠ "any" := by
  refine ⟨by decide, by decide, by decide⟩

/-- C1 amended.  For every spec document: (1) in every emitted model
descriptor, the base model name of each property type expression (the
expression with trailing `[]` stripped) is either one of the primitive
expressions (`string`, `number`, `boolean`, `object`, `any`) or listed in
that descriptor's own imports — type expressions never mention a model
the descriptor does not declare a dependency on; (2) every named document
schema `k` yields a batch member named `k ++ "Dto"`; and (3) the batch
names are duplicate-free.  A dependency naming a schema absent from the
document stays in the imports and the type expression but gets no batch
member (the structural skip; see the counterexample). -/
theorem generateAllDtos_closure (spec : Spec) :
    (∀ d ∈ (generateAllDtos spec).schemas, ∀ p ∈ d.properties,
      baseTypeName p.type ∈ basePrims ∨ baseTypeName p.type ∈ d.imports) ∧
    (∀ k ∈ spec.schemas.map Prod.fst,
      (k ++ "Dto") ∈ (generateAllDtos spec).schemas.map DtoSchema.name) ∧
    ((generateAllDtos spec).schemas.map DtoSchema.name).Nodup := by
  have hinv0 : GenInv ⟨[], [], [], []⟩ := by
    constructor
    · intro n d hd
      simp [List.lookup] at hd
    · intro n
      simp [List.lookup]
  set os := spec.originalSchemas.getD spec.schemas with hos
  set st1 := spec.schemas.foldl (genFirstPassStep spec os)
    (⟨[], [], [], []⟩ : GenState) with hst1
  set st2 := st1.nestedDtoSchemas.foldl (genSecondPassStep spec) st1
    with hst2
  have hdef : (generateAllDtos spec).schemas
      = (topologicalSort st2.dependencies).filterMap
          (fun n => List.lookup n st2.allDtos) := rfl
  have hinv1 : GenInv st1 :=
    firstPass_inv spec os spec.schemas ⟨[], [], [], []⟩ hinv0
  have hinv2 : GenInv st2 :=
    secondPass_inv spec st1.nestedDtoSchemas st1 hinv1
  obtain ⟨hvals, hkeys⟩ := hinv2
  obtain ⟨hnodupS, hmemS⟩ := topologicalSort_keys st2.dependencies
  have hall : ∀ n ∈ topologicalSort st2.dependencies,
      (List.lookup n st2.allDtos).isSome = true := by
    intro n hn
    exact (hkeys n).mpr (mem_keys_lookup_isSome _ _ ((hmemS n).mp hn))
  have hnames : ((generateAllDtos spec).schemas).map DtoSchema.name
      = topologicalSort st2.dependencies := by
    rw [hdef]
    exact filterMap_lookup_names _ _ (fun n d hd => (hvals n d hd).1) hall
  refine ⟨?_, ?_, ?_⟩
  · intro d hd p hp
    rw [hdef] at hd
    obtain ⟨n, _, hdn⟩ := List.mem_filterMap.mp hd
    exact (hvals n d hdn).2 p hp
  · intro k hk
    rw [hnames, hmemS]
    apply lookup_isSome_mem_keys
    rw [← hkeys]
    apply secondPass_lookup_mono
    obtain ⟨e, he, rfl⟩ := List.mem_map.mp hk
    exact firstPass_keys spec os spec.schemas ⟨[], [], [], []⟩ e he
  · rw [hnames]
    exact hnodupS

/-- Witness for C1 on the dangling-reference document: the batch member
`ADto` exists with duplicate-free names, and its single property's base
type name `MissingDto` is recorded in `ADto`'s imports. -/
theorem generateAllDtos_closure_witness :
    ("A" ++ "Dto") ∈ ((generateAllDtos (Spec.mk
        [("A", fixObj [("x", fixRef "#/components/schemas/Missing")] [])]
        none)).schemas.map DtoSchema.name) ∧
    ((generateAllDtos (Spec.mk
        [("A", fixObj [("x", fixRef "#/components/schemas/Missing")] [])]
        none)).schemas.map DtoSchema.name).Nodup ∧
    (baseTypeName "MissingDto" ∈ basePrims ∨
      baseTypeName "MissingDto" ∈ ["MissingDto"]) :=
  ⟨(generateAllDtos_closure (Spec.mk
        [("A", fixObj [("x", fixRef "#/components/schemas/Missing")] [])]
        none)).2.1 "A" (by decide),
   (generateAllDtos_closure (Spec.mk
        [("A", fixObj [("x", fixRef "#/components/schemas/Missing")] [])]
        none)).2.2,
   (generateAllDtos_closure (Spec.mk
        [("A", fixObj [("x", fixRef "#/components/schemas/Missing")] [])]
        none)).1
      ⟨"ADto", [⟨"x?", "MissingDto", false⟩], ["MissingDto"]⟩ (by decide)
      ⟨"x?", "MissingDto", false⟩ (by decide)⟩

end NestGen
